import Mathlib

/-!
mysh: the line parser, the history hook and the main loop

A shallow embedding of `src/parser.cpp` and `src/mysh.cpp`.

* A `std::string` is a `List Char` (`Str`), one `Char` per character of the
  C++ string.
* The array `tokens` is the list of the command slots, slot `k` at position `k`.
* The header `parser.hpp` is not part of the sources at hand; what it declares
  (`Command`, `MAX_COMMANDS`, `getStatus`, `getNumCommands`, `getNumPipes`) is
  either a parameter or modelled from the specification and marked so.
-/

namespace Mysh

/-- A C++ `std::string`, as the list of its characters. -/
abbrev Str := List Char

/-- Modelled from the spec: the record `Command` is declared in `parser.hpp`,
which is missing. The fields are the ones `parser.cpp` and `mysh.cpp` use
(`exec`, `args`, `fileIn`, `fileOut`, `fileApnd`, `pipeIn`, `pipeOut`,
`background`, `empty`). -/
structure Command where
  exec : Str
  args : List Str
  fileIn : Str
  fileOut : Str
  fileApnd : Str
  pipeIn : Bool
  pipeOut : Bool
  background : Bool
  empty : Bool
deriving DecidableEq, Repr

/-- Modelled from the spec: a default-constructed `Command` (an element of
`new Command[MAX_COMMANDS]`) has empty strings, no argument, the flags
`pipeIn`, `pipeOut`, `background` off, and is marked empty (`isEmpty` is
"true when the slot was produced by a separator but contained no tokens"). -/
def Command.init : Command :=
  { exec := [], args := [], fileIn := [], fileOut := [], fileApnd := [],
    pipeIn := false, pipeOut := false, background := false, empty := true }

/-- The locals of the inner `while (true)` loop of `Parser::Parser`
(parser.cpp:15-17) together with the slot `tokens[command_counter]` that the
loop is filling. -/
structure Scan where
  cmd : Command
  curr_substr : Str
  token_counter : Nat
  prev_delimiter : Char
deriving DecidableEq, Repr

/-- The state at the start of each iteration of the outer `for` loop
(parser.cpp:15-17): an untouched slot, `curr_substr = ""`,
`token_counter = 0`, `prev_delimiter = '0'`. -/
def Scan.fresh : Scan :=
  { cmd := Command.init, curr_substr := [], token_counter := 0, prev_delimiter := '0' }

/-- The body of the `if` of parser.cpp:30-54, run at character `ch` when `ch`
is one of space, `<`, `>`, `|`, `;` or is the last character of the line.
`before` is the value of `str[i - 1]` read at parser.cpp:49-50. -/
def boundary (before ch : Char) (s : Scan) : Scan :=
  let s1 : Scan :=
    if s.token_counter = 0 then
      if s.curr_substr ≠ [] then
        { s with
          cmd := { s.cmd with exec := s.curr_substr,
                              args := s.cmd.args ++ [s.curr_substr],
                              empty := false }
          token_counter := s.token_counter + 1 }
      else s
    else if s.prev_delimiter = '<' then
      { s with cmd := { s.cmd with fileIn := s.curr_substr } }
    else if s.prev_delimiter = '>' then
      { s with cmd := { s.cmd with fileOut := s.curr_substr } }
    else if ch ≠ '<' ∧ ch ≠ '>' then
      if s.curr_substr ≠ [] then
        { s with cmd := { s.cmd with args := s.cmd.args ++ [s.curr_substr] } }
      else s
    else s
  let s2 : Scan :=
    if before ≠ '<' ∧ before ≠ '>' ∧ before ≠ '|' ∧ before ≠ ';' then
      { s1 with prev_delimiter := ch }
    else s1
  { s2 with curr_substr := [] }

/-- One iteration of the inner `while (true)` loop of `Parser::Parser`
(parser.cpp:19-60) at position `i`: the locals after the iteration, and
whether the iteration leaves the loop by `break`.

`ch` is `str[i]`; `prev` is `some str[i - 1]` when `i > 0` and `none` when
`i = 0`; `last` says whether `i == str.length() - 1`. `oob` is the value
that the read `str[i - 1]` of parser.cpp:49-50 yields when `i = 0`, where the
position is outside the string; it is left arbitrary. The cast `(int)i` of
parser.cpp:20 is exact, the line being shorter than `2^31` characters. The
assignment of parser.cpp:57 is overwritten at parser.cpp:17 before any read
and is left out. -/
def step (oob : Char) (prev : Option Char) (ch : Char) (last : Bool) (s : Scan) : Scan × Bool :=
  if prev = some ' ' ∧ ch = ' ' then
    (s, last)
  else
    let s1 : Scan :=
      if ch ≠ ' ' ∧ ch ≠ '<' ∧ ch ≠ '>' ∧ ch ≠ '|' ∧ ch ≠ ';' then
        { s with curr_substr := s.curr_substr ++ [ch] }
      else s
    let s2 : Scan :=
      if ch = ' ' ∨ ch = '<' ∨ ch = '>' ∨ last = true ∨ ch = '|' ∨ ch = ';' then
        boundary (prev.getD oob) ch s1
      else s1
    (s2, decide (ch = '|' ∨ ch = ';' ∨ last = true))

/-- The two nested loops of `Parser::Parser` (parser.cpp:12-64) as one pass
over the line. The position `i` is represented by the characters
`str[i..]` still to read and by `prev` (see `step`); `s` holds the locals of
the inner loop.

A `break` of the inner loop closes the slot: the result lists, for each slot
in order, the slot and the `token_counter` that parser.cpp:63 adds to
`num_tokens`. The scan then goes on at `i + 1` with fresh locals (the `i++`
of the `for` and parser.cpp:15-17), and ends when `i` reaches the length. -/
def scan (oob : Char) : Option Char → Str → Scan → List (Command × Nat)
  | _, [], _ => []
  | prev, ch :: rest, s =>
    let r := step oob prev ch rest.isEmpty s
    if r.2 = true then
      (r.1.cmd, r.1.token_counter) :: scan oob (some ch) rest Scan.fresh
    else
      scan oob (some ch) rest r.1

/-- The members of `Parser` that parser.cpp reads and writes: the input line
`str`, the slots `tokens[0 .. command_counter - 1]` that the constructor went
through, and `num_tokens`. -/
structure Parser where
  str : Str
  tokens : List Command
  num_tokens : Nat
deriving DecidableEq, Repr

/-- The constructor `Parser::Parser` (parser.cpp:6-65); it is named `new`
because the structure `Parser` cannot hold a function of its own name. -/
def Parser.new (oob : Char) (str : Str) : Parser :=
  let slots := scan oob none str Scan.fresh
  { str := str, tokens := slots.map Prod.fst, num_tokens := (slots.map Prod.snd).sum }

/-- The accessor `Parser::getNumTokens` (parser.cpp:69). -/
def Parser.getNumTokens (p : Parser) : Nat := p.num_tokens

/-- The accessor `Parser::getTokens` (parser.cpp:71). -/
def Parser.getTokens (p : Parser) : List Command := p.tokens

/-! ## The history hook (parser.cpp:73-118) -/

/-- What `Parser::history` writes to standard output, one value per line of
output. -/
inductive Output where
  /-- The line `counter + 1 << ") " << line` of parser.cpp:85. -/
  | numbered (number : Nat) (line : Str)
  /-- The line `*it` of parser.cpp:114. -/
  | entry (line : Str)
  /-- The message of parser.cpp:105-106, which ends with the value of `index`. -/
  | belowOne (index : Int)
deriving DecidableEq, Repr

/-- The loop of parser.cpp:83-87: the lines of the log, each with
`counter + 1` in front. -/
def listing : Nat → List Str → List Output
  | _, [] => []
  | counter, line :: rest => Output.numbered (counter + 1) line :: listing (counter + 1) rest

/-- The digits read by `atoi`, most significant first, up to the first
character that is no digit. -/
def atoiDigits : Int → Str → Int
  | acc, [] => acc
  | acc, c :: cs =>
    if '0' ≤ c ∧ c ≤ '9' then atoiDigits (acc * 10 + ((c.toNat : Int) - 48)) cs else acc

/-- The C library function `atoi` (called at parser.cpp:102): leading white
space is skipped, then an optional sign and the decimal digits are read. -/
def atoi (s : Str) : Int :=
  match s.dropWhile (fun c => c = ' ' ∨ c = '\t' ∨ c = '\n' ∨ c = '\x0b' ∨ c = '\x0c' ∨ c = '\r') with
  | '-' :: cs => - atoiDigits 0 cs
  | '+' :: cs => atoiDigits 0 cs
  | cs => atoiDigits 0 cs

/-- The character `s[k]` of a string; where it is used, `k` is below the
length. -/
def charAt (s : Str) (k : Nat) : Char := s.getD k '\x00'

/-- The `int` that a `char` is promoted to in arithmetic (parser.cpp:96). The
elements of a line are the bytes of the `std::string`; `char` is signed on
the target, so a byte from 128 on is the negative number 256 below it. -/
def charInt (c : Char) : Int :=
  if c.toNat < 128 then (c.toNat : Int) else (c.toNat : Int) - 256

/-- The value of `index` after parser.cpp:94-103, for a token of length 3 or
4: `first_tok[2] - '0'` minus one, in `int` arithmetic on the promoted
`char`, or `atoi` of the two characters `first_tok[2]`, `first_tok[3]` minus
one. -/
def historyIndex (first_tok : Str) : Int :=
  if first_tok.length = 3 then (charInt (charAt first_tok 2) - charInt '0') - 1
  else atoi [charAt first_tok 2, charAt first_tok 3] - 1

/-- The method `Parser::history` (parser.cpp:73-118), called with the log
`history` and the slot `command_idx`. It returns the log as the call leaves
it and what the call prints.

The result is `none` when `std::advance` at parser.cpp:113 is called with a
negative `index` on `history.begin()`, which the C++ standard leaves
undefined. A slot of `tokens` that the constructor did not go through is a
default-constructed `Command`. -/
def Parser.history (p : Parser) (history : List Str) (command_idx : Nat) :
    Option (List Str × List Output) :=
  let history := if history.length = 20 then history.tail else history
  let history := history ++ [p.str]
  let first_tok := (p.tokens.getD command_idx Command.init).exec
  if first_tok = ['h'] then
    some (history, listing 0 history)
  else
    let tok_length := first_tok.length
    if (tok_length = 3 ∨ tok_length = 4) ∧ charAt first_tok 0 = 'h' ∧ charAt first_tok 1 = '-' then
      let index : Int := historyIndex first_tok
      let out : List Output := if index < 0 then [Output.belowOne index] else []
      if index < (history.length : Int) then
        let index := if history.length = 20 then index - 1 else index
        if index < 0 then none
        else some (history, out ++ [Output.entry (history.getD index.toNat [])])
      else some (history, out)
    else some (history, [])

/-! ## The main loop (mysh.cpp:51-198) -/

/-- The two values of the string that `Parser::getStatus` returns, as far as
mysh.cpp:65 tells them apart. -/
inductive Status where
  | OK
  | OVERMAX
deriving DecidableEq, Repr

/-- The number of `;` and `|` characters of a line. -/
def separators (str : Str) : Nat := str.countP (fun ch => ch = ';' ∨ ch = '|')

/-- Modelled from the spec: `Parser::getStatus` is called at mysh.cpp:64 but
neither declared nor defined in the sources at hand. The status is `OVERMAX`
for "any line whose separator count implies more than MAX_COMMANDS slots",
read as: the separators delimit more than `MAX_COMMANDS` segments. -/
def Parser.getStatus (MAX_COMMANDS : Nat) (p : Parser) : Status :=
  if separators p.str + 1 > MAX_COMMANDS then Status.OVERMAX else Status.OK

/-- Modelled from the spec: `Parser::getNumCommands` is called at mysh.cpp:73
but not defined in the sources at hand. It is `commandCount`, the number of
slots of the command list. -/
def Parser.getNumCommands (p : Parser) : Nat := p.tokens.length

/-- Modelled from the spec: `Parser::getNumPipes` is called at mysh.cpp:74 but
not defined in the sources at hand. "`pipeCount` equals the number of `|`
delimiters encountered on the line". -/
def Parser.getNumPipes (p : Parser) : Nat := p.str.countP (fun ch => ch = '|')

/-- What one pass of the main loop does that can be seen from outside the
shell process. A child process is named by the slot it was forked for. -/
inductive Event where
  /-- A line printed by `Parser::history`. -/
  | print (o : Output)
  /-- The message of mysh.cpp:66. -/
  | overmax
  /-- The `fork` of mysh.cpp:120 for the slot `slot`, with the pipes that the
  child puts on its standard input and output (mysh.cpp:157-167). -/
  | spawn (slot : Nat) (stdinPipe stdoutPipe : Option Nat)
  /-- The parent closes both ends of pipe `k` (mysh.cpp:177-178). -/
  | closePipe (k : Nat)
  /-- One `wait(&status)` (mysh.cpp:187). -/
  | wait
  /-- The `waitpid(child_pid, ..)` of mysh.cpp:192. -/
  | waitpid (slot : Nat)
deriving DecidableEq, Repr

/-- The variables that the loop of mysh.cpp:111-197 reads and writes:
`pipe_counter`, `num_pipepids`, the globals `ignore_sig` and `child_pid`
(`none` for the initial `-1`), and the events so far. -/
structure Exec where
  pipe_counter : Nat
  num_pipepids : Nat
  ignore_sig : Bool
  child_pid : Option Nat
  events : List Event
deriving DecidableEq, Repr

/-- The loop "handle keywords for all commands" (mysh.cpp:88-98) from slot `i`
on: `Parser::history` is called for each slot that is not empty. The hooks
`Parser::alias` and `Parser::cd` are not in the sources at hand and are left
out. -/
def hooksLoop (p : Parser) : Nat → List Command → List Str → List Output →
    Option (List Str × List Output)
  | _, [], history, out => some (history, out)
  | i, command :: rest, history, out =>
    if command.empty then hooksLoop p (i + 1) rest history out
    else
      match p.history history i with
      | none => none
      | some (history1, o) => hooksLoop p (i + 1) rest history1 (out ++ o)

/-- The loop "Execute commands" (mysh.cpp:111-197) from slot `i` on, as seen
by the parent process with every `fork` succeeding. The second component is
the exit code when the loop leaves `main` (mysh.cpp:115). -/
def execLoop : Nat → List Command → Exec → Exec × Option Nat
  | _, [], e => (e, none)
  | i, command :: rest, e =>
    if command.exec = ['e', 'x', 'i', 't'] then (e, some 0)
    else if command.empty then execLoop (i + 1) rest e
    else
      let stdinPipe := if command.pipeIn then some e.pipe_counter else none
      let childCounter := if command.pipeIn then e.pipe_counter + 1 else e.pipe_counter
      let stdoutPipe := if command.pipeOut then some childCounter else none
      let e1 : Exec :=
        { e with ignore_sig := false, child_pid := some i,
                 events := e.events ++ [Event.spawn i stdinPipe stdoutPipe] }
      let e2 : Exec :=
        if command.pipeIn ∨ command.pipeOut then
          let e1' : Exec := { e1 with num_pipepids := e1.num_pipepids + 1 }
          if command.pipeIn then
            { e1' with events := e1'.events ++ [Event.closePipe e1'.pipe_counter],
                       pipe_counter := e1'.pipe_counter + 1 }
          else e1'
        else e1
      let e3 : Exec :=
        if ¬ command.background ∧ ¬ command.pipeOut then
          if command.pipeIn then
            { e2 with events := e2.events ++ List.replicate e2.num_pipepids Event.wait }
          else
            { e2 with events := e2.events ++ [Event.waitpid i] }
        else e2
      execLoop (i + 1) rest { e3 with ignore_sig := true }

/-- The state of the shell between two lines: the history log and the two
globals of mysh.cpp:16-17. -/
structure Shell where
  history : List Str
  ignore_sig : Bool
  child_pid : Option Nat
deriving DecidableEq, Repr

/-- The state in which `main` enters its loop (mysh.cpp:16-17, 35). -/
def Shell.init : Shell := { history := [], ignore_sig := true, child_pid := none }

/-- One pass of the main loop (mysh.cpp:57-197) on the line `input`:
the new state, the events of the pass, and the exit code when the pass
leaves `main`. `MAX_COMMANDS` is the constant of the missing header. The
result is `none` when a call of `Parser::history` is undefined. -/
def mainLine (MAX_COMMANDS : Nat) (oob : Char) (sh : Shell) (input : Str) :
    Option (Shell × List Event × Option Nat) :=
  let parser := Parser.new oob input
  if parser.getStatus MAX_COMMANDS = Status.OVERMAX then some (sh, [Event.overmax], none)
  else if parser.getNumTokens = 0 then some (sh, [], none)
  else
    let history := if sh.history.length = 20 then sh.history.tail else sh.history
    let history := history ++ [input]
    match hooksLoop parser 0 parser.getTokens history [] with
    | none => none
    | some (history1, out) =>
      let r := execLoop 0 parser.getTokens
        { pipe_counter := 0, num_pipepids := 0, ignore_sig := sh.ignore_sig,
          child_pid := sh.child_pid, events := out.map Event.print }
      some ({ history := history1, ignore_sig := r.1.ignore_sig, child_pid := r.1.child_pid },
            r.1.events, r.2)

/-- The main loop (mysh.cpp:51-198) on the successive lines of standard
input: the state after the last line read, the events of each pass in order,
and the exit code if `main` returned. -/
def mainLoop (MAX_COMMANDS : Nat) (oob : Char) : Shell → List Str →
    Option (Shell × List (List Event) × Option Nat)
  | sh, [] => some (sh, [], none)
  | sh, input :: inputs =>
    match mainLine MAX_COMMANDS oob sh input with
    | none => none
    | some (sh1, events, some code) => some (sh1, [events], some code)
    | some (sh1, events, none) =>
      match mainLoop MAX_COMMANDS oob sh1 inputs with
      | none => none
      | some (sh2, rest, code) => some (sh2, events :: rest, code)

/-! ## Notions of the specification and invariants of the scan -/

/-- A character that belongs to a token: none of space, `<`, `>`, `|`, `;`
(the test of parser.cpp:27). -/
def isTokenChar (ch : Char) : Bool :=
  ch != ' ' && ch != '<' && ch != '>' && ch != '|' && ch != ';'

/-- A word: a non-empty string of token characters. -/
def IsWord (w : Str) : Prop := w ≠ [] ∧ ∀ c ∈ w, isTokenChar c = true

/-- What holds of the locals of the inner loop of `Parser::Parser` before each
iteration, `prev` being the character before the position (`none` at the
start of the line). -/
structure Inv (prev : Option Char) (s : Scan) : Prop where
  start : prev = none → s.token_counter = 0 ∧ s.curr_substr = []
  flushed : ∀ p, prev = some p → isTokenChar p = false → s.curr_substr = []
  pending : ∀ c ∈ s.curr_substr, isTokenChar c = true
  count : s.token_counter ≤ 1
  untouched : s.token_counter = 0 → s.cmd = Command.init
  named : s.token_counter ≠ 0 →
    s.cmd.empty = false ∧ IsWord s.cmd.exec ∧ s.cmd.args.head? = some s.cmd.exec
  words : ∀ a ∈ s.cmd.args, IsWord a
  fileInChars : ∀ c ∈ s.cmd.fileIn, isTokenChar c = true
  fileOutChars : ∀ c ∈ s.cmd.fileOut, isTokenChar c = true
  flags : s.cmd.pipeIn = false ∧ s.cmd.pipeOut = false ∧ s.cmd.background = false ∧
    s.cmd.fileApnd = []
  redirIn : s.token_counter ≠ 0 → s.prev_delimiter = '<' → prev = some ' ' → s.cmd.fileIn = []
  redirOut : s.token_counter ≠ 0 → s.prev_delimiter = '>' → prev = some ' ' → s.cmd.fileOut = []

/-- The line `a;a;..a;` made of `n` copies of `a;`: it has `n` separators. -/
def semicolonLine : Nat → Str
  | 0 => []
  | n + 1 => 'a' :: ';' :: semicolonLine n

/-- The slot of a command `exec` with the arguments `args` after it and no
redirection: what `Parser::Parser` leaves in a slot whose segment is made
of these words. -/
def Command.plain (exec : Str) (args : List Str) : Command :=
  { Command.init with exec := exec, args := exec :: args, empty := false }

/-- The segments of a line, after the specification: "Segments are
delimited by `;` (ends a command slot) and `|` (ends a command slot ..)".
Each separator ends the segment before it; what follows the last separator
is a segment when it is not empty. -/
def segmentsOf : Str → List Str
  | [] => []
  | ch :: rest =>
    if ch = ';' ∨ ch = '|' then [] :: segmentsOf rest
    else
      match segmentsOf rest with
      | [] => [[ch]]
      | seg :: segs => (ch :: seg) :: segs

/-- The first token of a segment: its first maximal run of token characters;
it is empty exactly when the segment contains no token. -/
def firstToken (seg : Str) : Str :=
  (seg.dropWhile (fun c => !isTokenChar c)).takeWhile isTokenChar

/-- The relation of C5 between a segment and its slot: a segment with a
token gives a slot marked non-empty whose executable is the first token and
whose argument list is non-empty and starts with the executable; a segment
without token gives a slot marked empty, without executable and arguments. -/
def SlotOfSegment (seg : Str) (slot : Command) : Prop :=
  (firstToken seg ≠ [] →
    slot.empty = false ∧ slot.exec = firstToken seg ∧ slot.args ≠ [] ∧
      slot.args.head? = some slot.exec) ∧
  (firstToken seg = [] → slot.empty = true ∧ slot.exec = [] ∧ slot.args = [])

/-- What the locals of the inner loop retain of the part of the segment read
so far, as far as the first token is concerned: the pending characters while
no token is complete, the executable and a space afterwards. -/
def Scan.seen (s : Scan) : Str :=
  if s.token_counter = 0 then s.curr_substr else s.cmd.exec ++ [' ']

/-- The words `v` of `more`, each after a run of `g + 1` spaces. -/
def spacedWords : List (Nat × Str) → Str
  | [] => []
  | (g, v) :: more => List.replicate (g + 1) ' ' ++ v ++ spacedWords more

/-- The line made of `lead` spaces, the word `w`, then for each `(g, v)` of
`more` a run of `g + 1` spaces and the word `v`, and last `trail` spaces:
the words `w, v1, .., vn` joined by runs of one or more spaces, with
optional runs of spaces in front and at the end. -/
def spacedLine (lead : Nat) (w : Str) (more : List (Nat × Str)) (trail : Nat) : Str :=
  List.replicate lead ' ' ++ (w ++ (spacedWords more ++ List.replicate trail ' '))

/-- One more slot for what follows the last separator: `1` when the line is
not empty and its last character is neither `;` nor `|`, else `0`. -/
def openSegment (str : Str) : Nat :=
  match str.getLast? with
  | none => 0
  | some c => if c = ';' ∨ c = '|' then 0 else 1

/-- The locals of the inner loop with `fileIn` of the slot set to `x`. -/
def Scan.setIn (x : Str) (s : Scan) : Scan := { s with cmd := { s.cmd with fileIn := x } }

/-- The token `h-N`, with `N` in decimal. -/
def hMinus (N : Nat) : Str := 'h' :: '-' :: (Nat.repr N).toList

/-- The log after the first two statements of `Parser::history` and of the
main loop (parser.cpp:75-78, mysh.cpp:82-85): the oldest entry is dropped
when the log holds 20 entries, then the line is appended. -/
def pushLine (history : List Str) (line : Str) : List Str :=
  (if history.length = 20 then history.tail else history) ++ [line]

/-- Twenty distinct lines, each a single command. -/
def twentyLines : List Str :=
  ["c01", "c02", "c03", "c04", "c05", "c06", "c07", "c08", "c09", "c10",
   "c11", "c12", "c13", "c14", "c15", "c16", "c17", "c18", "c19", "c20"].map String.toList

/-! ## The signal handler (mysh.cpp:16-31) -/

/-- The signals for which `main` registers `signal_handler`
(mysh.cpp:44-46). -/
inductive Signal where
  | SIGINT
  | SIGTSTP
  | SIGCHLD
deriving DecidableEq, Repr

/-- What `signal_handler` does, in order. The process `child_pid` is named as
in `Exec`: by the slot it was forked for, `none` for the initial `-1`. -/
inductive HandlerAction where
  /-- The call `waitpid(-1, &status, WNOHANG)` of mysh.cpp:23. -/
  | reap
  /-- The prompt is written after a line feed and flushed (mysh.cpp:25-26). -/
  | prompt
  /-- The call `kill(child_pid, signal)` of mysh.cpp:28. -/
  | kill (pid : Option Nat) (signal : Signal)
  /-- The line feed `std::endl` of mysh.cpp:29. -/
  | newline
deriving DecidableEq, Repr

/-- The function `signal_handler` (mysh.cpp:19-31), with the values of the
globals `ignore_sig` and `child_pid` at the time of the call. -/
def signal_handler (signal : Signal) (ignore_sig : Bool) (child_pid : Option Nat) :
    List HandlerAction :=
  if signal = Signal.SIGCHLD then [HandlerAction.reap]
  else if ignore_sig then [HandlerAction.prompt]
  else [HandlerAction.kill child_pid signal, HandlerAction.newline]

/-! ## Command lists made of pipelines, and what the execution loop does with them -/

/-- A command list made of well-formed pipelines and of slots outside any
pipeline, in the words of C12: within a pipeline of two or more consecutive
non-empty slots the first has `pipeOut` only, the middle ones have `pipeIn`
and `pipeOut`, the last has `pipeIn` only; the other slots have neither.
`inPipe` says whether the list starts inside a pipeline. -/
def wellFormed : Bool → List Command → Bool
  | inPipe, [] => !inPipe
  | false, c :: rest =>
    if c.pipeIn then false
    else if c.pipeOut then !c.empty && wellFormed true rest
    else wellFormed false rest
  | true, c :: rest =>
    if c.pipeIn then !c.empty && wellFormed c.pipeOut rest
    else false

/-- The number of pipes of a command list: one for each slot with `pipeOut`. -/
def pipeCount (tokens : List Command) : Nat := tokens.countP (fun c => c.pipeOut)

/-- The pairs (slot, pipe) of the children that put the write end of a pipe on
their standard output, in the order of the forks. -/
def stdoutUses (events : List Event) : List (Nat × Nat) :=
  events.filterMap fun ev =>
    match ev with
    | Event.spawn slot _ (some k) => some (slot, k)
    | _ => none

/-- The pairs (slot, pipe) of the children that put the read end of a pipe on
their standard input, in the order of the forks. -/
def stdinUses (events : List Event) : List (Nat × Nat) :=
  events.filterMap fun ev =>
    match ev with
    | Event.spawn slot (some k) _ => some (slot, k)
    | _ => none

/-- The slots for which a process was forked, in the order of the forks. -/
def spawnedSlots (events : List Event) : List Nat :=
  events.filterMap fun ev =>
    match ev with
    | Event.spawn slot _ _ => some slot
    | _ => none

/-- The number of calls of `wait` (mysh.cpp:187) among the events. -/
def waitCount (events : List Event) : Nat := events.count Event.wait

/-- The slots of a command list that are not empty, numbered from `i`. -/
def nonEmptySlots : Nat → List Command → List Nat
  | _, [] => []
  | i, c :: rest => if c.empty then nonEmptySlots (i + 1) rest else i :: nonEmptySlots (i + 1) rest

/-- The state in which the execution loop starts for a line (mysh.cpp:107-108),
with the globals as the previous line left them. -/
def Exec.start (ignore_sig : Bool) (child_pid : Option Nat) : Exec :=
  { pipe_counter := 0, num_pipepids := 0, ignore_sig := ignore_sig, child_pid := child_pid,
    events := [] }

/-- A command with the name `exec` and the two pipe flags, as the execution
loop expects it for a stage of a pipeline. -/
def Command.stage (exec : Str) (pipeIn pipeOut : Bool) : Command :=
  { Command.plain exec [] with pipeIn := pipeIn, pipeOut := pipeOut }

/-! ## The positions of the line that the constructor reads -/

/-- The value of `i - 1` for the `std::size_t` `i` (64 bits): it wraps around
when `i = 0`. -/
def indexBefore (i : Nat) : Nat := (i + 2 ^ 64 - 1) % 2 ^ 64

/-- The positions at which one iteration of the inner loop of
`Parser::Parser`, at position `i`, reads a character of `str`, in order:
`str[i]` at parser.cpp:19; `str[i - 1]` at parser.cpp:20, which the test
`(int)i > 0` guards; and `str[i - 1]` at parser.cpp:49-50, read without a
guard whenever the body of parser.cpp:30-54 runs (the position is listed once
for the up to four reads of that condition). `prev`, `ch`, `last` are as in
`step`. -/
def stepReads (i : Nat) (prev : Option Char) (ch : Char) (last : Bool) : List Nat :=
  [i] ++ (if i > 0 then [indexBefore i] else []) ++
    (if prev = some ' ' ∧ ch = ' ' then []
     else if ch = ' ' ∨ ch = '<' ∨ ch = '>' ∨ last = true ∨ ch = '|' ∨ ch = ';' then
       [indexBefore i]
     else [])

/-- The positions of `str` that the loops of `Parser::Parser` read, from
position `i` on; the pass is the one of `scan`, in which every character is
the object of one iteration of the inner loop. -/
def scanReads : Nat → Option Char → Str → List Nat
  | _, _, [] => []
  | i, prev, ch :: rest => stepReads i prev ch rest.isEmpty ++ scanReads (i + 1) (some ch) rest

/-- The positions of the line that the constructor `Parser::Parser` reads. -/
def Parser.reads (str : Str) : List Nat := scanReads 0 none str

/-! ## Basic facts about the scan -/

theorem isTokenChar_iff (ch : Char) :
    isTokenChar ch = true ↔ ch ≠ ' ' ∧ ch ≠ '<' ∧ ch ≠ '>' ∧ ch ≠ '|' ∧ ch ≠ ';' := by
  simp [isTokenChar, and_assoc]

theorem isTokenChar_false_iff (ch : Char) :
    isTokenChar ch = false ↔ ch = ' ' ∨ ch = '<' ∨ ch = '>' ∨ ch = '|' ∨ ch = ';' := by
  rw [← Bool.not_eq_true, isTokenChar_iff]
  tauto

theorem scan_nil (oob : Char) (prev : Option Char) (s : Scan) : scan oob prev [] s = [] := rfl

theorem scan_cons (oob : Char) (prev : Option Char) (ch : Char) (rest : Str) (s : Scan) :
    scan oob prev (ch :: rest) s =
      if (step oob prev ch rest.isEmpty s).2 = true then
        ((step oob prev ch rest.isEmpty s).1.cmd, (step oob prev ch rest.isEmpty s).1.token_counter)
          :: scan oob (some ch) rest Scan.fresh
      else scan oob (some ch) rest (step oob prev ch rest.isEmpty s).1 := rfl

theorem Inv.fresh (prev : Option Char) : Inv prev Scan.fresh := by
  constructor <;> simp [Scan.fresh, Command.init]

theorem boundary_curr (b ch : Char) (s : Scan) : (boundary b ch s).curr_substr = [] := by
  unfold boundary
  split_ifs <;> rfl

theorem boundary_token_counter (b ch : Char) (s : Scan) :
    (boundary b ch s).token_counter =
      if s.token_counter = 0 ∧ s.curr_substr ≠ [] then 1 else s.token_counter := by
  unfold boundary
  split_ifs <;> simp_all

theorem boundary_prev_delimiter (b ch : Char) (s : Scan) :
    (boundary b ch s).prev_delimiter =
      if b ≠ '<' ∧ b ≠ '>' ∧ b ≠ '|' ∧ b ≠ ';' then ch else s.prev_delimiter := by
  unfold boundary
  split_ifs <;> simp_all

theorem boundary_cmd (b ch : Char) (s : Scan) :
    (boundary b ch s).cmd =
      if s.token_counter = 0 then
        if s.curr_substr ≠ [] then
          { s.cmd with exec := s.curr_substr, args := s.cmd.args ++ [s.curr_substr], empty := false }
        else s.cmd
      else if s.prev_delimiter = '<' then { s.cmd with fileIn := s.curr_substr }
      else if s.prev_delimiter = '>' then { s.cmd with fileOut := s.curr_substr }
      else if ch ≠ '<' ∧ ch ≠ '>' ∧ s.curr_substr ≠ [] then
        { s.cmd with args := s.cmd.args ++ [s.curr_substr] }
      else s.cmd := by
  unfold boundary
  split_ifs <;> simp_all

theorem Inv.boundary {s : Scan} (b ch : Char)
    (hpend : ∀ c ∈ s.curr_substr, isTokenChar c = true)
    (hcount : s.token_counter ≤ 1)
    (hunt : s.token_counter = 0 → s.cmd = Command.init)
    (hnamed : s.token_counter ≠ 0 →
      s.cmd.empty = false ∧ IsWord s.cmd.exec ∧ s.cmd.args.head? = some s.cmd.exec)
    (hwords : ∀ a ∈ s.cmd.args, IsWord a)
    (hin : ∀ c ∈ s.cmd.fileIn, isTokenChar c = true)
    (hout : ∀ c ∈ s.cmd.fileOut, isTokenChar c = true)
    (hflags : s.cmd.pipeIn = false ∧ s.cmd.pipeOut = false ∧ s.cmd.background = false ∧
      s.cmd.fileApnd = [])
    (hb : ch = ' ' → s.token_counter ≠ 0 → (b = '<' ∨ b = '>' ∨ b = '|' ∨ b = ';') →
      s.curr_substr = []) :
    Inv (some ch) (boundary b ch s) := by
  have hhead : ∀ (l : List Str) (x y : Str), l.head? = some x → (l ++ [y]).head? = some x := by
    intro l x y h
    cases l with
    | nil => simp at h
    | cons a l => simpa using h
  constructor
  · simp
  · intro _ _ _; exact boundary_curr b ch s
  · simp [boundary_curr]
  · rw [boundary_token_counter]; split_ifs <;> omega
  · rw [boundary_token_counter, boundary_cmd]
    intro h
    by_cases h0 : s.token_counter = 0
    · by_cases hc : s.curr_substr = []
      · simp [h0, hc, hunt h0]
      · simp [h0, hc] at h
    · simp [h0] at h
  · rw [boundary_token_counter, boundary_cmd]
    intro _
    by_cases h0 : s.token_counter = 0
    · by_cases hc : s.curr_substr = []
      · simp_all
      · simp only [h0, hc, if_true, ne_eq, not_false_eq_true]
        refine ⟨trivial, ⟨hc, hpend⟩, ?_⟩
        simp [hunt h0, Command.init]
    · obtain ⟨e1, e2, e3⟩ := hnamed h0
      simp only [h0, if_false]
      split_ifs
      · exact ⟨e1, e2, e3⟩
      · exact ⟨e1, e2, e3⟩
      · exact ⟨e1, e2, hhead _ _ _ e3⟩
      · exact ⟨e1, e2, e3⟩
  · rw [boundary_cmd]
    have hc : s.curr_substr ≠ [] → IsWord s.curr_substr := fun h => ⟨h, hpend⟩
    split_ifs with h0 h1 h2 h3 h4
    · intro a ha
      simp only [List.mem_append, List.mem_singleton] at ha
      rcases ha with ha | ha
      · exact hwords a ha
      · exact ha ▸ hc h1
    · exact hwords
    · exact hwords
    · exact hwords
    · intro a ha
      simp only [List.mem_append, List.mem_singleton] at ha
      rcases ha with ha | ha
      · exact hwords a ha
      · exact ha ▸ hc h4.2.2
    · exact hwords
  · rw [boundary_cmd]
    split_ifs <;> first | exact hin | exact hpend
  · rw [boundary_cmd]
    split_ifs <;> first | exact hout | exact hpend
  · rw [boundary_cmd]
    split_ifs <;> exact hflags
  · rw [boundary_token_counter, boundary_cmd, boundary_prev_delimiter]
    intro h1 h2 h3
    have hch : ch = ' ' := by simpa using h3
    subst hch
    by_cases h0 : s.token_counter = 0
    · by_cases hc : s.curr_substr = []
      · simp [h0, hc] at h1
      · simp [h0, hc, hunt h0, Command.init]
    · simp only [h0, if_false]
      by_cases hbs : b ≠ '<' ∧ b ≠ '>' ∧ b ≠ '|' ∧ b ≠ ';'
      · simp [hbs] at h2
      · have hcurr : s.curr_substr = [] := hb rfl h0 (by tauto)
        simp only [hbs, if_false] at h2
        simp [h2, hcurr]
  · rw [boundary_token_counter, boundary_cmd, boundary_prev_delimiter]
    intro h1 h2 h3
    have hch : ch = ' ' := by simpa using h3
    subst hch
    by_cases h0 : s.token_counter = 0
    · by_cases hc : s.curr_substr = []
      · simp [h0, hc] at h1
      · simp [h0, hc, hunt h0, Command.init]
    · simp only [h0, if_false]
      by_cases hbs : b ≠ '<' ∧ b ≠ '>' ∧ b ≠ '|' ∧ b ≠ ';'
      · simp [hbs] at h2
      · have hcurr : s.curr_substr = [] := hb rfl h0 (by tauto)
        simp only [hbs, if_false] at h2
        simp [h2, hcurr]

theorem step_skip (oob : Char) (last : Bool) (s : Scan) :
    step oob (some ' ') ' ' last s = (s, last) := by
  simp [step]

theorem step_token (oob : Char) (prev : Option Char) {ch : Char} (s : Scan)
    (h : isTokenChar ch = true) :
    step oob prev ch false s = ({ s with curr_substr := s.curr_substr ++ [ch] }, false) := by
  rw [isTokenChar_iff] at h
  simp [step, h]

theorem step_token_last (oob : Char) (prev : Option Char) {ch : Char} (s : Scan)
    (h : isTokenChar ch = true) :
    step oob prev ch true s =
      (boundary (prev.getD oob) ch { s with curr_substr := s.curr_substr ++ [ch] }, true) := by
  rw [isTokenChar_iff] at h
  simp [step, h]

theorem step_delim (oob : Char) {prev : Option Char} {ch : Char} (last : Bool) (s : Scan)
    (h : isTokenChar ch = false) (hns : ¬ (prev = some ' ' ∧ ch = ' ')) :
    step oob prev ch last s =
      (boundary (prev.getD oob) ch s, decide (ch = '|' ∨ ch = ';' ∨ last = true)) := by
  rw [isTokenChar_false_iff] at h
  unfold step
  rw [if_neg hns]
  have h1 : ¬ (ch ≠ ' ' ∧ ch ≠ '<' ∧ ch ≠ '>' ∧ ch ≠ '|' ∧ ch ≠ ';') := by tauto
  have h2 : ch = ' ' ∨ ch = '<' ∨ ch = '>' ∨ last = true ∨ ch = '|' ∨ ch = ';' := by tauto
  simp only [if_neg h1, if_pos h2]

theorem Inv.step {prev : Option Char} {s : Scan} (h : Inv prev s) (oob ch : Char) (last : Bool) :
    Inv (some ch) (step oob prev ch last s).1 := by
  by_cases hskip : prev = some ' ' ∧ ch = ' '
  · obtain ⟨hp, hc⟩ := hskip
    subst hp hc
    rw [step_skip]
    exact h
  · by_cases ht : isTokenChar ch = true
    · have hpend : ∀ c ∈ s.curr_substr ++ [ch], isTokenChar c = true := by
        intro c hc
        simp only [List.mem_append, List.mem_singleton] at hc
        rcases hc with hc | hc
        · exact h.pending c hc
        · exact hc ▸ ht
      have hsp : ch ≠ ' ' := ((isTokenChar_iff ch).1 ht).1
      cases last with
      | false =>
        rw [step_token oob prev s ht]
        exact ⟨by simp, fun p hp hf => by simp_all, hpend, h.count, h.untouched, h.named,
          h.words, h.fileInChars, h.fileOutChars, h.flags,
          fun _ _ hp => absurd (Option.some.inj hp) hsp,
          fun _ _ hp => absurd (Option.some.inj hp) hsp⟩
      | true =>
        rw [step_token_last oob prev s ht]
        exact Inv.boundary _ _ hpend h.count h.untouched h.named h.words h.fileInChars
          h.fileOutChars h.flags (fun hc => absurd hc hsp)
    · have ht : isTokenChar ch = false := by simpa using ht
      rw [step_delim oob last s ht hskip]
      refine Inv.boundary _ _ h.pending h.count h.untouched h.named h.words h.fileInChars
        h.fileOutChars h.flags ?_
      intro _ h0 hb
      cases prev with
      | none => exact absurd (h.start rfl).1 h0
      | some p =>
        refine h.flushed p rfl ?_
        rw [isTokenChar_false_iff]
        simp only [Option.getD_some] at hb
        tauto

/-! ## The value read before the start of the line does not matter -/

theorem Scan.ext_fields {s t : Scan} (h1 : t.cmd = s.cmd) (h2 : t.curr_substr = s.curr_substr)
    (h3 : t.token_counter = s.token_counter) (h4 : t.prev_delimiter = s.prev_delimiter) :
    t = s := by
  cases s; cases t; simp_all

theorem step_oob_some (oob oob1 p ch : Char) (last : Bool) (s : Scan) :
    step oob (some p) ch last s = step oob1 (some p) ch last s := by
  simp [step]

theorem scan_oob_some (oob oob1 : Char) (rest : Str) :
    ∀ (p : Char) (s : Scan), scan oob (some p) rest s = scan oob1 (some p) rest s := by
  induction rest with
  | nil => intro p s; rfl
  | cons ch rest ih =>
    intro p s
    rw [scan_cons, scan_cons, step_oob_some oob oob1, ih ch, ih ch]

/-- While no token of the segment is complete, neither `prev_delimiter` nor
the value read before the start of the line has any effect on the slot. -/
theorem step_congr (oob oob1 : Char) {prev : Option Char} {s t : Scan} (ch : Char) (last : Bool)
    (h : Inv prev s) (h0 : s.token_counter = 0)
    (e1 : t.cmd = s.cmd) (e2 : t.curr_substr = s.curr_substr)
    (e3 : t.token_counter = s.token_counter) :
    (step oob1 prev ch last t).2 = (step oob prev ch last s).2 ∧
    (step oob1 prev ch last t).1.cmd = (step oob prev ch last s).1.cmd ∧
    (step oob1 prev ch last t).1.curr_substr = (step oob prev ch last s).1.curr_substr ∧
    (step oob1 prev ch last t).1.token_counter = (step oob prev ch last s).1.token_counter ∧
    ((step oob prev ch last s).2 = false → (step oob prev ch last s).1.token_counter ≠ 0 →
      (step oob1 prev ch last t).1 = (step oob prev ch last s).1) := by
  by_cases hskip : prev = some ' ' ∧ ch = ' '
  · obtain ⟨hp, hc⟩ := hskip
    subst hp hc
    simp only [step_skip]
    exact ⟨trivial, e1, e2, e3, fun _ h1 => absurd h0 h1⟩
  · by_cases ht : isTokenChar ch = true
    · cases last with
      | false =>
        simp only [step_token _ _ _ ht]
        exact ⟨trivial, e1, by simp [e2], e3, fun _ h1 => absurd h0 h1⟩
      | true =>
        simp only [step_token_last _ _ _ ht, boundary_cmd, boundary_curr, boundary_token_counter]
        simp [e1, e2, e3, h0]
    · have ht : isTokenChar ch = false := by simpa using ht
      simp only [step_delim _ last _ ht hskip, boundary_cmd, boundary_curr,
        boundary_token_counter]
      refine ⟨trivial, by simp [e1, e2, e3, h0], trivial, by simp [e2, e3], ?_⟩
      intro _ h1
      have hc : s.curr_substr ≠ [] := by
        intro hc
        simp [h0, hc] at h1
      apply Scan.ext_fields
      · simp [boundary_cmd, e1, e2, e3, h0]
      · simp [boundary_curr]
      · simp [boundary_token_counter, e2, e3]
      · cases prev with
        | none => exact absurd (h.start rfl).2 hc
        | some p =>
          have hp : isTokenChar p = true := by
            by_contra hp
            exact hc (h.flushed p rfl (by simpa using hp))
          rw [isTokenChar_iff] at hp
          simp [boundary_prev_delimiter, hp]

theorem scan_congr (oob oob1 : Char) (rest : Str) :
    ∀ (prev : Option Char) (s t : Scan), Inv prev s → s.token_counter = 0 →
      t.cmd = s.cmd → t.curr_substr = s.curr_substr → t.token_counter = s.token_counter →
      scan oob1 prev rest t = scan oob prev rest s := by
  induction rest with
  | nil => intro _ _ _ _ _ _ _ _; rfl
  | cons ch rest ih =>
    intro prev s t h h0 e1 e2 e3
    obtain ⟨c1, c2, _, c4, c5⟩ := step_congr oob oob1 ch rest.isEmpty h h0 e1 e2 e3
    rw [scan_cons, scan_cons, c1, c2, c4]
    by_cases hb : (step oob prev ch rest.isEmpty s).2 = true
    · rw [if_pos hb, if_pos hb, ih (some ch) Scan.fresh Scan.fresh (Inv.fresh _) rfl rfl rfl rfl]
    · rw [if_neg hb, if_neg hb]
      by_cases hz : (step oob prev ch rest.isEmpty s).1.token_counter = 0
      · exact ih (some ch) _ _ (h.step oob ch _) hz c2 (by assumption) c4
      · rw [c5 (by simpa using hb) hz]
        exact scan_oob_some oob1 oob rest ch _

/-- The slots do not depend on the value that parser.cpp:49-50 reads at
`str[i - 1]` when `i = 0`. -/
theorem Parser.new_oob (oob oob1 : Char) (str : Str) : Parser.new oob1 str = Parser.new oob str := by
  unfold Parser.new
  rw [scan_congr oob oob1 str none Scan.fresh Scan.fresh (Inv.fresh _) rfl rfl rfl rfl]

/-! ## What holds of every slot -/

theorem scan_slots_inv (oob : Char) (rest : Str) :
    ∀ (prev : Option Char) (s : Scan), Inv prev s →
      ∀ x ∈ scan oob prev rest s, ∃ p t, Inv p t ∧ x = (t.cmd, t.token_counter) := by
  induction rest with
  | nil => intro _ _ _ x hx; simp [scan_nil] at hx
  | cons ch rest ih =>
    intro prev s h x hx
    rw [scan_cons] at hx
    split_ifs at hx with hb
    · rcases List.mem_cons.1 hx with hx | hx
      · exact ⟨some ch, _, h.step oob ch _, hx⟩
      · exact ih (some ch) Scan.fresh (Inv.fresh _) x hx
    · exact ih (some ch) _ (h.step oob ch _) x hx

theorem tokens_inv (oob : Char) (str : Str) :
    ∀ c ∈ (Parser.new oob str).tokens, ∃ p t, Inv p t ∧ c = t.cmd := by
  intro c hc
  simp only [Parser.new, List.mem_map] at hc
  obtain ⟨x, hx, rfl⟩ := hc
  obtain ⟨p, t, ht, rfl⟩ := scan_slots_inv oob str none Scan.fresh (Inv.fresh _) x hx
  exact ⟨p, t, ht, rfl⟩

/-! ## C1: more segments than `MAX_COMMANDS` -/

theorem separators_semicolonLine (n : Nat) : separators (semicolonLine n) = n := by
  induction n with
  | zero => rfl
  | succ n ih =>
    simp only [semicolonLine, separators] at ih ⊢
    rw [List.countP_cons, List.countP_cons, ih]
    simp

theorem scan_semicolonLine (oob : Char) (n : Nat) :
    ∀ prev : Option Char, scan oob prev (semicolonLine n) Scan.fresh =
      List.replicate n (Command.plain ['a'] [], 1) := by
  induction n with
  | zero => intro _; rfl
  | succ n ih =>
    intro prev
    have ha : isTokenChar 'a' = true := by decide
    have hs : isTokenChar ';' = false := by decide
    simp only [semicolonLine]
    rw [scan_cons]
    simp only [List.isEmpty_cons, step_token oob prev _ ha]
    rw [if_neg (by simp), scan_cons, step_delim oob _ _ hs (by simp), ih]
    simp [boundary_cmd, boundary_token_counter, Scan.fresh, Command.plain, Command.init,
      List.replicate_succ]

/-- C1 (the code departs from the claim): whatever the value of
`MAX_COMMANDS`, the line of `MAX_COMMANDS + 1` copies of `a;` has more than
`MAX_COMMANDS` separators, and `Parser::Parser` fills `MAX_COMMANDS + 1`
slots for it: it assigns the command `a` to `tokens[MAX_COMMANDS]`, an index
that is not below `MAX_COMMANDS`. -/
theorem constructor_writes_slot_MAX_COMMANDS (MAX_COMMANDS : Nat) (oob : Char) :
    MAX_COMMANDS < separators (semicolonLine (MAX_COMMANDS + 1)) ∧
    (Parser.new oob (semicolonLine (MAX_COMMANDS + 1))).tokens.length = MAX_COMMANDS + 1 ∧
    (Parser.new oob (semicolonLine (MAX_COMMANDS + 1))).tokens[MAX_COMMANDS]? =
      some (Command.plain ['a'] []) := by
  simp [Parser.new, scan_semicolonLine, separators_semicolonLine, List.getElem?_replicate]

/-! ## C2: the pipe flags -/

/-- C2 (the code departs from the claim): for the line `a | b` the
constructor fills two slots, for `a` and for `b`, and leaves `pipeIn` and
`pipeOut` off in both; and for no line at all does it turn on `pipeIn` or
`pipeOut` in a slot. -/
theorem constructor_leaves_pipe_flags_off :
    (∀ oob : Char, (Parser.new oob "a | b".toList).tokens =
      [Command.plain ['a'] [], Command.plain ['b'] []]) ∧
    (Command.plain ['a'] []).pipeOut = false ∧ (Command.plain ['b'] []).pipeIn = false ∧
    (∀ (oob : Char) (str : Str), ∀ c ∈ (Parser.new oob str).tokens,
      c.pipeIn = false ∧ c.pipeOut = false) := by
  refine ⟨fun oob => rfl, rfl, rfl, ?_⟩
  intro oob str c hc
  obtain ⟨p, t, ht, rfl⟩ := tokens_inv oob str c hc
  exact ⟨ht.flags.1, ht.flags.2.1⟩

/-! ## C4: an argument that ends at `>` -/

/-- C4 (the code departs from the claim): for the line `c a>f`, with no space
before `>`, the constructor fills one slot with executable `c`, output file
`f` and the arguments `[c]` only: the argument `a` is lost. For `c a >f`,
with a space before `>`, the arguments are `[c, a]`. -/
theorem constructor_drops_argument_before_redirect (oob : Char) :
    (Parser.new oob "c a>f".toList).tokens =
      [{ Command.plain ['c'] [] with fileOut := ['f'] }] ∧
    (Command.plain ['c'] []).args = [['c']] ∧
    (Parser.new oob "c a >f".toList).tokens =
      [{ Command.plain ['c'] [['a']] with fileOut := ['f'] }] := by
  exact ⟨rfl, rfl, rfl⟩

/-! ## C5: a slot and its segment -/

theorem firstToken_ne_nil_iff (seg : Str) :
    firstToken seg ≠ [] ↔ ∃ c ∈ seg, isTokenChar c = true := by
  induction seg with
  | nil => simp [firstToken]
  | cons ch seg ih =>
    by_cases h : isTokenChar ch = true
    · simp [firstToken, List.dropWhile_cons, List.takeWhile_cons, h]
    · have h : isTokenChar ch = false := by simpa using h
      simp only [firstToken, List.dropWhile_cons, h, Bool.not_false, if_true] at ih ⊢
      rw [ih]
      simp [h]

theorem firstToken_cons_delim {ch : Char} (seg : Str) (h : isTokenChar ch = false) :
    firstToken (ch :: seg) = firstToken seg := by
  simp [firstToken, List.dropWhile_cons, h]

theorem firstToken_word_append {w : Str} (seg : Str) (h : IsWord w) :
    firstToken (w ++ seg) = w ++ seg.takeWhile isTokenChar := by
  obtain ⟨hne, hw⟩ := h
  cases w with
  | nil => exact absurd rfl hne
  | cons c w =>
    have hc : isTokenChar c = true := hw c (by simp)
    have hw1 : ∀ x ∈ w, isTokenChar x = true := fun x hx => hw x (by simp [hx])
    simp only [firstToken, List.cons_append, List.dropWhile_cons, hc, Bool.not_true,
      Bool.false_eq_true, if_false, List.takeWhile_cons, if_true]
    congr 1
    clear hw hne
    induction w with
    | nil => rfl
    | cons d w ih =>
      simp only [List.cons_append, List.takeWhile_cons, hw1 d (by simp), if_true]
      rw [ih fun x hx => hw1 x (by simp [hx])]

theorem firstToken_seen_named {p : Option Char} {s : Scan} (h : Inv p s)
    (h0 : s.token_counter ≠ 0) (X : Str) : firstToken (s.seen ++ X) = s.cmd.exec := by
  have hw := (h.named h0).2.1
  have hsp : isTokenChar ' ' = false := by decide
  simp only [Scan.seen, h0, if_false, List.append_assoc]
  rw [firstToken_word_append _ hw]
  simp [List.takeWhile_cons, hsp]

theorem boundary_named (b ch : Char) {s : Scan} (h0 : s.token_counter ≠ 0) :
    (boundary b ch s).token_counter ≠ 0 ∧ (boundary b ch s).cmd.exec = s.cmd.exec := by
  rw [boundary_token_counter, boundary_cmd]
  simp only [h0, false_and, if_false, ne_eq, not_false_eq_true, true_and]
  split_ifs <;> rfl

theorem step_named (oob : Char) (prev : Option Char) (ch : Char) (last : Bool) {s : Scan}
    (h0 : s.token_counter ≠ 0) :
    (step oob prev ch last s).1.token_counter ≠ 0 ∧
      (step oob prev ch last s).1.cmd.exec = s.cmd.exec := by
  unfold step
  split_ifs
  · exact ⟨h0, rfl⟩
  · exact boundary_named _ _ h0
  · exact ⟨h0, rfl⟩
  · exact boundary_named _ _ h0
  · exact ⟨h0, rfl⟩

theorem firstToken_step {prev : Option Char} {s : Scan} (h : Inv prev s) (oob ch : Char)
    (last : Bool) (X : Str) (hX : last = true → X = []) (hsep : ¬ (ch = '|' ∨ ch = ';')) :
    firstToken (s.seen ++ ch :: X) = firstToken ((step oob prev ch last s).1.seen ++ X) := by
  have hr := h.step oob ch last
  by_cases h0 : s.token_counter = 0
  swap
  · rw [firstToken_seen_named h h0, firstToken_seen_named hr (step_named oob prev ch last h0).1,
      (step_named oob prev ch last h0).2]
  have hseen : s.seen = s.curr_substr := by simp [Scan.seen, h0]
  by_cases hskip : prev = some ' ' ∧ ch = ' '
  · obtain ⟨hp, hc⟩ := hskip
    subst hp hc
    rw [step_skip, hseen, h.flushed ' ' rfl (by decide)]
    exact firstToken_cons_delim _ (by decide)
  · by_cases ht : isTokenChar ch = true
    · have hw : IsWord (s.curr_substr ++ [ch]) := by
        refine ⟨by simp, ?_⟩
        intro c hc
        simp only [List.mem_append, List.mem_singleton] at hc
        rcases hc with hc | hc
        · exact h.pending c hc
        · exact hc ▸ ht
      cases last with
      | false =>
        rw [step_token oob prev s ht]
        simp [Scan.seen, h0]
      | true =>
        have hne : (step oob prev ch true s).1.token_counter ≠ 0 := by
          rw [step_token_last oob prev s ht, boundary_token_counter]
          simp [h0]
        rw [firstToken_seen_named hr hne, hX rfl, hseen, step_token_last oob prev s ht,
          boundary_cmd]
        simp only [h0, if_true]
        rw [if_pos (by simp)]
        have := firstToken_word_append [] hw
        simpa using this
    · have ht : isTokenChar ch = false := by simpa using ht
      by_cases hc : s.curr_substr = []
      · have e1 : (step oob prev ch last s).1.seen = [] := by
          rw [step_delim oob last s ht hskip]
          simp [Scan.seen, boundary_token_counter, boundary_curr, h0, hc]
        rw [e1, hseen, hc]
        exact firstToken_cons_delim _ ht
      · have hne : (step oob prev ch last s).1.token_counter ≠ 0 := by
          rw [step_delim oob last s ht hskip, boundary_token_counter]
          simp [h0, hc]
        rw [firstToken_seen_named hr hne, hseen, step_delim oob last s ht hskip, boundary_cmd]
        simp only [h0, if_true, hc, ne_eq, not_false_eq_true]
        rw [firstToken_word_append _ ⟨hc, h.pending⟩]
        simp [List.takeWhile_cons, ht]

theorem firstToken_step_sep {prev : Option Char} {s : Scan} (h : Inv prev s) (oob ch : Char)
    (last : Bool) (hsep : ch = '|' ∨ ch = ';') :
    firstToken s.seen = firstToken (step oob prev ch last s).1.seen := by
  have hr := h.step oob ch last
  have ht : isTokenChar ch = false := by
    rcases hsep with rfl | rfl <;> decide
  have hskip : ¬ (prev = some ' ' ∧ ch = ' ') := by
    rintro ⟨_, rfl⟩
    revert hsep
    decide
  by_cases h0 : s.token_counter = 0
  · have hseen : s.seen = s.curr_substr := by simp [Scan.seen, h0]
    by_cases hc : s.curr_substr = []
    · have e1 : (step oob prev ch last s).1.seen = [] := by
        rw [step_delim oob last s ht hskip]
        simp [Scan.seen, boundary_token_counter, boundary_curr, h0, hc]
      rw [e1, hseen, hc]
    · have hne : (step oob prev ch last s).1.token_counter ≠ 0 := by
        rw [step_delim oob last s ht hskip, boundary_token_counter]
        simp [h0, hc]
      have e1 := firstToken_seen_named hr hne []
      rw [List.append_nil] at e1
      rw [e1, hseen, step_delim oob last s ht hskip, boundary_cmd]
      simp only [h0, if_true, hc, ne_eq, not_false_eq_true]
      have := firstToken_word_append [] ⟨hc, h.pending⟩
      simpa using this
  · have e1 := firstToken_seen_named h h0 []
    have e2 := firstToken_seen_named hr (step_named oob prev ch last h0).1 []
    rw [List.append_nil] at e1 e2
    rw [e1, e2, (step_named oob prev ch last h0).2]

theorem step_break_curr {prev : Option Char} {s : Scan} (h : Inv prev s) (oob ch : Char)
    (last : Bool) (hb : (step oob prev ch last s).2 = true) :
    (step oob prev ch last s).1.curr_substr = [] := by
  by_cases hskip : prev = some ' ' ∧ ch = ' '
  · obtain ⟨hp, hc⟩ := hskip
    subst hp hc
    rw [step_skip]
    exact h.flushed ' ' rfl (by decide)
  · by_cases ht : isTokenChar ch = true
    · cases last with
      | false =>
        rw [step_token oob prev s ht] at hb
        simp at hb
      | true =>
        rw [step_token_last oob prev s ht]
        exact boundary_curr _ _ _
    · have ht : isTokenChar ch = false := by simpa using ht
      rw [step_delim oob last s ht hskip]
      exact boundary_curr _ _ _

theorem slotOfSegment_of_seen {p : Option Char} {r : Scan} (h : Inv p r)
    (hc : r.curr_substr = []) {seg : Str} (e : firstToken seg = firstToken r.seen) :
    SlotOfSegment seg r.cmd := by
  by_cases h0 : r.token_counter = 0
  · have e1 : firstToken seg = [] := by
      rw [e]
      simp [Scan.seen, h0, hc, firstToken]
    refine ⟨fun hne => absurd e1 hne, fun _ => ?_⟩
    rw [h.untouched h0]
    exact ⟨rfl, rfl, rfl⟩
  · have e1 := firstToken_seen_named h h0 []
    rw [List.append_nil] at e1
    obtain ⟨n1, n2, n3⟩ := h.named h0
    rw [e1] at e
    refine ⟨fun _ => ⟨n1, e.symm, ?_, n3⟩, fun he => absurd (e ▸ he) n2.1⟩
    intro ha
    rw [ha] at n3
    simp at n3

theorem step_snd (oob : Char) (prev : Option Char) (ch : Char) (last : Bool) (s : Scan) :
    (step oob prev ch last s).2 = true ↔ (ch = '|' ∨ ch = ';') ∨ last = true := by
  unfold step
  split_ifs with h
  · obtain ⟨_, rfl⟩ := h
    simp
  all_goals
    simp only [decide_eq_true_eq]
    tauto

theorem SlotOfSegment.congr {a b : Str} {c : Command} (e : firstToken a = firstToken b)
    (h : SlotOfSegment b c) : SlotOfSegment a c := by
  unfold SlotOfSegment at h ⊢
  rw [e]
  exact h

theorem scan_segments (oob : Char) (rest : Str) :
    ∀ (prev : Option Char) (s : Scan), Inv prev s →
      (rest = [] ∨ ∃ seg segs c cs, segmentsOf rest = seg :: segs ∧
        (scan oob prev rest s).map Prod.fst = c :: cs ∧
        SlotOfSegment (s.seen ++ seg) c ∧ List.Forall₂ SlotOfSegment segs cs) := by
  induction rest with
  | nil => intro _ _ _; exact Or.inl rfl
  | cons ch rest ih =>
    intro prev s h
    right
    have hfresh : ∀ p, List.Forall₂ SlotOfSegment (segmentsOf rest)
        ((scan oob p rest Scan.fresh).map Prod.fst) := by
      intro p
      rcases ih p Scan.fresh (Inv.fresh _) with rfl | ⟨seg, segs, c, cs, e1, e2, e3, e4⟩
      · simp [segmentsOf, scan_nil]
      · rw [e1, e2]
        exact List.Forall₂.cons (by simpa [Scan.seen, Scan.fresh] using e3) e4
    have hr := h.step oob ch rest.isEmpty
    rw [scan_cons]
    by_cases hb : (step oob prev ch rest.isEmpty s).2 = true
    · rw [if_pos hb, List.map_cons]
      have hcurr := step_break_curr h oob ch rest.isEmpty hb
      by_cases hsep : ch = '|' ∨ ch = ';'
      · refine ⟨[], segmentsOf rest, _, _, ?_, rfl, ?_, hfresh _⟩
        · have : ch = ';' ∨ ch = '|' := by tauto
          simp [segmentsOf, this]
        · rw [List.append_nil]
          exact slotOfSegment_of_seen hr hcurr (firstToken_step_sep h oob ch _ hsep)
      · have hlast : rest.isEmpty = true := by
          rcases (step_snd oob prev ch rest.isEmpty s).1 hb with h1 | h1
          · exact absurd h1 hsep
          · exact h1
        have hnil : rest = [] := by simpa using hlast
        subst hnil
        refine ⟨[ch], [], _, _, ?_, rfl, ?_, List.Forall₂.nil⟩
        · have : ¬ (ch = ';' ∨ ch = '|') := by tauto
          simp [segmentsOf, this]
        · apply slotOfSegment_of_seen hr hcurr
          have := firstToken_step h oob ch true [] (fun _ => rfl) hsep
          simpa using this
    · rw [if_neg hb]
      have hb1 := (not_congr (step_snd oob prev ch rest.isEmpty s)).1 hb
      have hsep : ¬ (ch = '|' ∨ ch = ';') := fun hs => hb1 (Or.inl hs)
      have hlast : rest.isEmpty = false := by
        cases hl : rest.isEmpty
        · rfl
        · exact absurd (Or.inr hl) hb1
      rcases ih (some ch) _ hr with rfl | ⟨seg, segs, c, cs, e1, e2, e3, e4⟩
      · simp at hlast
      · refine ⟨ch :: seg, segs, c, cs, ?_, e2, ?_, e4⟩
        · have : ¬ (ch = ';' ∨ ch = '|') := by tauto
          simp [segmentsOf, this, e1]
        · refine SlotOfSegment.congr ?_ e3
          have := firstToken_step h oob ch rest.isEmpty seg (fun hl => by simp [hlast] at hl) hsep
          exact this

/-- C5: for every line, the slots that `Parser::Parser` fills correspond one
to one, in order, to the segments of the line, and each slot is to its
segment as the claim says: when the segment contains a token the slot is
marked non-empty, its executable is the first token of the segment, and its
argument list is non-empty with the executable as argument 0; when the
segment contains no token the slot is marked empty and has neither
executable nor arguments. -/
theorem slot_matches_first_token_of_segment (oob : Char) (str : Str) :
    List.Forall₂ SlotOfSegment (segmentsOf str) (Parser.new oob str).tokens := by
  rcases scan_segments oob str none Scan.fresh (Inv.fresh _) with rfl | ⟨seg, segs, c, cs, e1, e2, e3, e4⟩
  · simp [segmentsOf, Parser.new, scan_nil]
  · simp only [Parser.new]
    rw [e1, e2]
    exact List.Forall₂.cons (by simpa [Scan.seen, Scan.fresh] using e3) e4

/-! ## C7: a `;` appended to the line -/

theorem boundary_noop (b ch : Char) {s : Scan} (hc : s.curr_substr = [])
    (hin : s.token_counter ≠ 0 → s.prev_delimiter = '<' → s.cmd.fileIn = [])
    (hout : s.token_counter ≠ 0 → s.prev_delimiter = '>' → s.cmd.fileOut = []) :
    (boundary b ch s).cmd = s.cmd ∧ (boundary b ch s).token_counter = s.token_counter := by
  rw [boundary_cmd, boundary_token_counter]
  refine ⟨?_, by simp [hc]⟩
  simp only [hc, ne_eq, not_true_eq_false, if_false, and_false]
  split_ifs with h0 h1 h2
  · rfl
  · have := hin h0 h1
    cases hcmd : s.cmd
    simp_all
  · have := hout h0 h2
    cases hcmd : s.cmd
    simp_all
  · rfl

theorem scan_last_then_semicolon (oob : Char) {prev : Option Char} {s : Scan} (h : Inv prev s)
    {c : Char} (hc : c ≠ ';' ∧ c ≠ '|' ∧ c ≠ '<' ∧ c ≠ '>') :
    scan oob prev [c, ';'] s = scan oob prev [c] s := by
  have hsc : isTokenChar ';' = false := by decide
  by_cases ht : isTokenChar c = true
  · have hnb : ¬ ((s.curr_substr ++ [c] = []) ) := by simp
    simp only [scan_cons, scan_nil, List.isEmpty_cons, List.isEmpty_nil,
      step_token oob prev s ht, step_token_last oob prev s ht,
      step_delim oob true _ hsc (show ¬ (some c = some ' ' ∧ ';' = ' ') by simp),
      boundary_cmd, boundary_token_counter]
    simp [hc.2.2.1, hc.2.2.2]
  · have ht : isTokenChar c = false := by simpa using ht
    have hsp : c = ' ' := by
      rw [isTokenChar_false_iff] at ht
      tauto
    subst hsp
    have hfst : ∀ l : Bool, (step oob prev ' ' l s).1 = (step oob prev ' ' true s).1 := by
      intro l
      by_cases hskip : prev = some ' ' ∧ ' ' = ' '
      · obtain ⟨hp, _⟩ := hskip
        subst hp
        simp [step_skip]
      · simp [step_delim oob _ s ht hskip]
    have hsnd : ∀ l : Bool, (step oob prev ' ' l s).2 = l := by
      intro l
      cases l
      · have := (not_congr (step_snd oob prev ' ' false s)).2 (by simp)
        simpa using this
      · exact (step_snd oob prev ' ' true s).2 (Or.inr rfl)
    have ht1 := h.step oob ' ' true
    have hcurr : (step oob prev ' ' true s).1.curr_substr = [] := ht1.flushed ' ' rfl ht
    obtain ⟨e1, e2⟩ := boundary_noop ' ' ';' hcurr (fun a b => ht1.redirIn a b rfl)
      (fun a b => ht1.redirOut a b rfl)
    simp only [scan_cons, scan_nil, List.isEmpty_cons, List.isEmpty_nil, hsnd, hfst false,
      step_delim oob true _ hsc (show ¬ (some ' ' = some ' ' ∧ ';' = ' ') by simp)]
    simp [e1, e2]

theorem scan_append_semicolon (oob : Char) {c : Char}
    (hc : c ≠ ';' ∧ c ≠ '|' ∧ c ≠ '<' ∧ c ≠ '>') (pre : Str) :
    ∀ (prev : Option Char) (s : Scan), Inv prev s →
      scan oob prev (pre ++ [c, ';']) s = scan oob prev (pre ++ [c]) s := by
  induction pre with
  | nil => intro prev s h; exact scan_last_then_semicolon oob h hc
  | cons a pre ih =>
    intro prev s h
    have e1 : (pre ++ [c, ';']).isEmpty = false := by cases pre <;> rfl
    have e2 : (pre ++ [c]).isEmpty = false := by cases pre <;> rfl
    simp only [List.cons_append, scan_cons, e1, e2]
    rw [ih (some a) Scan.fresh (Inv.fresh _), ih (some a) _ (h.step oob a false)]

/-- C7, amended: for every line whose last character is none of `;`, `|`,
`<`, `>`, the constructor fills the same slots, in the same order and with
the same content, for the line and for the line with one `;` appended; the
count `num_tokens` is the same too. -/
theorem semicolon_appended_same_slots (oob : Char) (pre : Str) (c : Char)
    (hc : c ≠ ';' ∧ c ≠ '|' ∧ c ≠ '<' ∧ c ≠ '>') :
    (Parser.new oob (pre ++ [c] ++ [';'])).tokens = (Parser.new oob (pre ++ [c])).tokens ∧
    (Parser.new oob (pre ++ [c] ++ [';'])).num_tokens = (Parser.new oob (pre ++ [c])).num_tokens := by
  have e := scan_append_semicolon oob hc pre none Scan.fresh (Inv.fresh _)
  simp only [Parser.new, List.append_assoc, List.singleton_append, e, and_self]

theorem semicolon_appended_same_slots_witness :
    ('l' ≠ ';' ∧ 'l' ≠ '|' ∧ 'l' ≠ '<' ∧ 'l' ≠ '>') ∧
    (Parser.new '0' ("cat <f | ls -".toList ++ ['l'] ++ [';'])).tokens =
      (Parser.new '0' ("cat <f | ls -".toList ++ ['l'])).tokens ∧
    (Parser.new '0' ("cat <f | ls -".toList ++ ['l'] ++ [';'])).num_tokens =
      (Parser.new '0' ("cat <f | ls -".toList ++ ['l'])).num_tokens :=
  ⟨by decide, semicolon_appended_same_slots '0' "cat <f | ls -".toList 'l' (by decide)⟩

/-- C7 as stated fails: the line `a<f<` ends with neither `;` nor `|`, and the
slot of `a<f<` has the input file `f` whereas the slot of `a<f<;` has an
empty input file (the `;` makes parser.cpp:41 run once more, with an empty
`curr_substr`). -/
theorem semicolon_appended_counterexample :
    ¬ ∃ oob : Char, (Parser.new oob "a<f<;".toList).tokens = (Parser.new oob "a<f<".toList).tokens := by
  rintro ⟨oob, h⟩
  have h1 : (Parser.new oob "a<f<;".toList).tokens = [Command.plain ['a'] []] := rfl
  have h2 : (Parser.new oob "a<f<".toList).tokens =
      [{ Command.plain ['a'] [] with fileIn := ['f'] }] := rfl
  rw [h1, h2] at h
  revert h
  decide

/-! ## C6: words and runs of spaces -/

theorem scan_spaces_skip (oob : Char) (n : Nat) :
    ∀ (s : Scan) (rest : Str), rest ≠ [] →
      scan oob (some ' ') (List.replicate n ' ' ++ rest) s = scan oob (some ' ') rest s := by
  induction n with
  | zero => intro s rest _; rfl
  | succ n ih =>
    intro s rest hr
    have e : (List.replicate n ' ' ++ rest).isEmpty = false := by
      cases n <;> cases rest <;> simp_all [List.replicate_succ]
    rw [List.replicate_succ, List.cons_append, scan_cons, e, step_skip]
    simpa using ih s rest hr

theorem scan_spaces_end (oob : Char) (n : Nat) :
    ∀ s : Scan, scan oob (some ' ') (List.replicate (n + 1) ' ') s =
      [(s.cmd, s.token_counter)] := by
  induction n with
  | zero =>
    intro s
    simp [List.replicate_succ, scan_cons, scan_nil, step_skip]
  | succ n ih =>
    intro s
    rw [List.replicate_succ, scan_cons, step_skip]
    simpa [List.replicate_succ] using ih s

theorem scan_word (oob : Char) (w : Str) :
    (∀ c ∈ w, isTokenChar c = true) → w ≠ [] →
    ∀ (prev : Option Char) (s : Scan) (rest : Str), rest ≠ [] →
      ∃ p, isTokenChar p = true ∧
        scan oob prev (w ++ rest) s =
          scan oob (some p) rest { s with curr_substr := s.curr_substr ++ w } := by
  induction w with
  | nil => intro _ h; exact absurd rfl h
  | cons c w ih =>
    intro hw _ prev s rest hr
    have hc : isTokenChar c = true := hw c (by simp)
    have e : (w ++ rest).isEmpty = false := by cases w <;> cases rest <;> simp_all
    rw [List.cons_append, scan_cons, e, step_token oob prev s hc]
    by_cases hnil : w = []
    · subst hnil
      exact ⟨c, hc, by simp⟩
    · obtain ⟨p, hp, e1⟩ := ih (fun x hx => hw x (by simp [hx])) hnil (some c)
        { s with curr_substr := s.curr_substr ++ [c] } rest hr
      exact ⟨p, hp, by simp [e1]⟩

theorem scan_word_end (oob : Char) (w : Str) :
    (∀ c ∈ w, isTokenChar c = true) → w ≠ [] →
    ∀ (prev : Option Char) (s : Scan),
      ∃ b ch, isTokenChar ch = true ∧
        scan oob prev w s =
          [((boundary b ch { s with curr_substr := s.curr_substr ++ w }).cmd,
            (boundary b ch { s with curr_substr := s.curr_substr ++ w }).token_counter)] := by
  induction w with
  | nil => intro _ h; exact absurd rfl h
  | cons c w ih =>
    intro hw _ prev s
    have hc : isTokenChar c = true := hw c (by simp)
    by_cases hnil : w = []
    · subst hnil
      refine ⟨prev.getD oob, c, hc, ?_⟩
      simp [scan_cons, scan_nil, step_token_last oob prev s hc]
    · have e : w.isEmpty = false := by cases w <;> simp_all
      obtain ⟨b, ch, hch, e1⟩ := ih (fun x hx => hw x (by simp [hx])) hnil (some c)
        { s with curr_substr := s.curr_substr ++ [c] }
      refine ⟨b, ch, hch, ?_⟩
      rw [scan_cons, e, step_token oob prev s hc]
      simpa using e1

theorem boundary_first_word (b ch pd : Char) {v : Str} (hv : v ≠ []) :
    (boundary b ch ⟨Command.init, v, 0, pd⟩).cmd = Command.plain v [] ∧
    (boundary b ch ⟨Command.init, v, 0, pd⟩).token_counter = 1 := by
  simp [boundary_cmd, boundary_token_counter, hv, Command.plain, Command.init]

theorem boundary_next_word (b : Char) {ch pd : Char} (w : Str) (as : List Str) {v : Str}
    (hv : v ≠ []) (hch : ch ≠ '<' ∧ ch ≠ '>') (hpd : pd ≠ '<' ∧ pd ≠ '>') :
    (boundary b ch ⟨Command.plain w as, v, 1, pd⟩).cmd = Command.plain w (as ++ [v]) ∧
    (boundary b ch ⟨Command.plain w as, v, 1, pd⟩).token_counter = 1 := by
  simp [boundary_cmd, boundary_token_counter, hv, hch, hpd, Command.plain]

theorem spacedWords_tail_eq_nil {more : List (Nat × Str)} {trail : Nat}
    (h : spacedWords more ++ List.replicate trail ' ' = []) : more = [] ∧ trail = 0 := by
  cases more with
  | nil =>
    cases trail with
    | zero => exact ⟨rfl, rfl⟩
    | succ t => simp [spacedWords, List.replicate_succ] at h
  | cons q more =>
    obtain ⟨g, v⟩ := q
    simp [spacedWords, List.replicate_succ] at h

theorem scan_space_after_word (oob : Char) {p : Char} (hp : isTokenChar p = true) (rest : Str)
    (s : Scan) :
    scan oob (some p) (' ' :: rest) s =
      if rest = [] then [((boundary p ' ' s).cmd, (boundary p ' ' s).token_counter)]
      else scan oob (some ' ') rest (boundary p ' ' s) := by
  have hne : ¬ (some p = some ' ' ∧ ' ' = ' ') := by
    rintro ⟨h, _⟩
    rw [Option.some.inj h] at hp
    revert hp
    decide
  rw [scan_cons, step_delim oob _ s (by decide) hne]
  cases rest with
  | nil => simp [scan_nil]
  | cons c rest => simp

theorem boundary_first_word_state {p : Char} (hp : isTokenChar p = true) (pd : Char) {v : Str}
    (hv : v ≠ []) :
    boundary p ' ' ⟨Command.init, v, 0, pd⟩ = ⟨Command.plain v [], [], 1, ' '⟩ := by
  rw [isTokenChar_iff] at hp
  apply Scan.ext_fields
  · exact (boundary_first_word p ' ' pd hv).1
  · exact boundary_curr _ _ _
  · exact (boundary_first_word p ' ' pd hv).2
  · simp [boundary_prev_delimiter, hp]

theorem boundary_next_word_state {p : Char} (hp : isTokenChar p = true) {pd : Char} (w : Str)
    (as : List Str) {v : Str} (hv : v ≠ []) (hpd : pd ≠ '<' ∧ pd ≠ '>') :
    boundary p ' ' ⟨Command.plain w as, v, 1, pd⟩ = ⟨Command.plain w (as ++ [v]), [], 1, ' '⟩ := by
  rw [isTokenChar_iff] at hp
  apply Scan.ext_fields
  · exact (boundary_next_word p w as hv (by decide) hpd).1
  · exact boundary_curr _ _ _
  · exact (boundary_next_word p w as hv (by decide) hpd).2
  · simp [boundary_prev_delimiter, hp]

theorem scan_more_words (oob : Char) (w : Str) (trail : Nat) (more : List (Nat × Str)) :
    ∀ (as : List Str) (v : Str) (prev : Option Char) (pd : Char), IsWord v →
      (∀ q ∈ more, IsWord q.2) → pd ≠ '<' ∧ pd ≠ '>' →
      scan oob prev (v ++ (spacedWords more ++ List.replicate trail ' '))
          ⟨Command.plain w as, [], 1, pd⟩ =
        [(Command.plain w (as ++ v :: more.map Prod.snd), 1)] := by
  induction more with
  | nil =>
    intro as v prev pd hv _ hpd
    by_cases hR : spacedWords [] ++ List.replicate trail ' ' = []
    · obtain ⟨b, ch, hch, e⟩ := scan_word_end oob v hv.2 hv.1 prev ⟨Command.plain w as, [], 1, pd⟩
      rw [isTokenChar_iff] at hch
      rw [hR, List.append_nil, e]
      obtain ⟨e1, e2⟩ := boundary_next_word b w as hv.1 ⟨hch.2.1, hch.2.2.1⟩ hpd
      simp only [List.nil_append, e1, e2, List.map_nil]
    · obtain ⟨p, hp, e⟩ := scan_word oob v hv.2 hv.1 prev ⟨Command.plain w as, [], 1, pd⟩ _ hR
      rw [e]
      simp only [spacedWords, List.nil_append] at hR ⊢
      cases trail with
      | zero => simp at hR
      | succ t =>
        rw [List.replicate_succ, scan_space_after_word oob hp,
          boundary_next_word_state hp w as hv.1 hpd]
        cases t with
        | zero => simp
        | succ t =>
          rw [if_neg (by simp [List.replicate_succ]), scan_spaces_end]
          simp
  | cons q more ih =>
    intro as v prev pd hv hmore hpd
    obtain ⟨g, v1⟩ := q
    have hv1 : IsWord v1 := hmore (g, v1) (by simp)
    have hR : spacedWords ((g, v1) :: more) ++ List.replicate trail ' ' ≠ [] := by
      simp [spacedWords, List.replicate_succ]
    obtain ⟨p, hp, e⟩ := scan_word oob v hv.2 hv.1 prev ⟨Command.plain w as, [], 1, pd⟩ _ hR
    have hne : v1 ++ (spacedWords more ++ List.replicate trail ' ') ≠ [] := by
      have := hv1.1
      simp [this]
    rw [e]
    simp only [spacedWords, List.nil_append, List.replicate_succ, List.cons_append,
      List.append_assoc]
    rw [scan_space_after_word oob hp, boundary_next_word_state hp w as hv.1 hpd,
      if_neg (by simp [hne]), scan_spaces_skip oob g _ _ hne,
      ih (as ++ [v]) v1 (some ' ') ' ' hv1 (fun q hq => hmore q (by simp [hq]))
        ⟨by decide, by decide⟩]
    simp

theorem scan_first_word (oob : Char) (w : Str) (trail : Nat) (more : List (Nat × Str))
    (prev : Option Char) (pd : Char) (hw : IsWord w) (hmore : ∀ q ∈ more, IsWord q.2) :
    scan oob prev (w ++ (spacedWords more ++ List.replicate trail ' '))
        ⟨Command.init, [], 0, pd⟩ =
      [(Command.plain w (more.map Prod.snd), 1)] := by
  by_cases hR : spacedWords more ++ List.replicate trail ' ' = []
  · obtain ⟨b, ch, _, e⟩ := scan_word_end oob w hw.2 hw.1 prev ⟨Command.init, [], 0, pd⟩
    obtain ⟨rfl, rfl⟩ := spacedWords_tail_eq_nil hR
    rw [hR, List.append_nil, e]
    obtain ⟨e1, e2⟩ := boundary_first_word b ch pd hw.1
    simp only [List.nil_append, e1, e2, List.map_nil]
  · obtain ⟨p, hp, e⟩ := scan_word oob w hw.2 hw.1 prev ⟨Command.init, [], 0, pd⟩ _ hR
    rw [e]
    cases more with
    | nil =>
      simp only [spacedWords, List.nil_append] at hR ⊢
      cases trail with
      | zero => simp at hR
      | succ t =>
        rw [List.replicate_succ, scan_space_after_word oob hp,
          boundary_first_word_state hp pd hw.1]
        cases t with
        | zero => simp
        | succ t =>
          rw [if_neg (by simp [List.replicate_succ]), scan_spaces_end]
          simp
    | cons q more =>
      obtain ⟨g, v1⟩ := q
      have hv1 : IsWord v1 := hmore (g, v1) (by simp)
      have hne : v1 ++ (spacedWords more ++ List.replicate trail ' ') ≠ [] := by
        have := hv1.1
        simp [this]
      simp only [spacedWords, List.nil_append, List.replicate_succ, List.cons_append,
        List.append_assoc]
      rw [scan_space_after_word oob hp, boundary_first_word_state hp pd hw.1,
        if_neg (by simp [hne]), scan_spaces_skip oob g _ _ hne,
        scan_more_words oob w trail more [] v1 (some ' ') ' ' hv1
          (fun q hq => hmore q (by simp [hq])) ⟨by decide, by decide⟩]
      simp

/-- C6: for every non-empty list of words `w, v1, .., vn`, the line in which
the words are joined by runs of one or more spaces, after `lead` spaces and
before `trail` spaces (both possibly zero), parses to exactly one slot, whose
argument list is exactly `[w, v1, .., vn]` (and whose executable is `w`),
whatever the lengths of the runs. -/
theorem spaces_collapse_to_arguments (oob : Char) (lead : Nat) (w : Str)
    (more : List (Nat × Str)) (trail : Nat) (hw : IsWord w) (hmore : ∀ q ∈ more, IsWord q.2) :
    (Parser.new oob (spacedLine lead w more trail)).tokens =
        [Command.plain w (more.map Prod.snd)] ∧
    (Command.plain w (more.map Prod.snd)).args = w :: more.map Prod.snd := by
  refine ⟨?_, rfl⟩
  have hne : w ++ (spacedWords more ++ List.replicate trail ' ') ≠ [] := by
    have := hw.1
    simp [this]
  simp only [Parser.new, spacedLine]
  cases lead with
  | zero =>
    have := scan_first_word oob w trail more none '0' hw hmore
    simp only [List.replicate_zero, List.nil_append]
    rw [show Scan.fresh = ⟨Command.init, [], 0, '0'⟩ from rfl, this]
    rfl
  | succ l =>
    have hb : boundary oob ' ' Scan.fresh =
        ⟨Command.init, [], 0, (boundary oob ' ' Scan.fresh).prev_delimiter⟩ := by
      apply Scan.ext_fields
      · simp [boundary_cmd, boundary_token_counter, Scan.fresh]
      · simp [boundary_curr]
      · simp [boundary_token_counter, Scan.fresh]
      · rfl
    have e : (List.replicate l ' ' ++ (w ++ (spacedWords more ++ List.replicate trail ' '))).isEmpty
        = false := by
      cases l <;> cases w <;> simp_all [List.replicate_succ]
    have hs : step oob none ' ' false Scan.fresh = (boundary oob ' ' Scan.fresh, false) := by
      rw [step_delim oob _ _ (by decide) (by simp)]
      simp
    rw [List.replicate_succ, List.cons_append, scan_cons, e, hs, if_neg (by simp),
      scan_spaces_skip oob l _ _ hne, hb,
      scan_first_word oob w trail more (some ' ') _ hw hmore]
    rfl

theorem spaces_collapse_to_arguments_witness :
    (IsWord "ls".toList ∧ ∀ q ∈ [(2, "-l".toList), (0, "/tmp".toList)], IsWord q.2) ∧
    (Parser.new '0' (spacedLine 2 "ls".toList [(2, "-l".toList), (0, "/tmp".toList)] 3)).tokens =
        [Command.plain "ls".toList ([(2, "-l".toList), (0, "/tmp".toList)].map Prod.snd)] ∧
    (Command.plain "ls".toList ([(2, "-l".toList), (0, "/tmp".toList)].map Prod.snd)).args =
      "ls".toList :: [(2, "-l".toList), (0, "/tmp".toList)].map Prod.snd :=
  have h1 : IsWord "ls".toList := ⟨by decide, by decide⟩
  have h2 : ∀ q ∈ [(2, "-l".toList), (0, "/tmp".toList)], IsWord q.2 := by
    intro q hq
    simp only [List.mem_cons, List.mem_singleton, List.not_mem_nil, or_false] at hq
    rcases hq with rfl | rfl <;> exact ⟨by decide, by decide⟩
  ⟨⟨h1, h2⟩, spaces_collapse_to_arguments '0' 2 "ls".toList
    [(2, "-l".toList), (0, "/tmp".toList)] 3 h1 h2⟩

/-! ## The number of slots, and the slots before a separator -/

theorem separators_cons (ch : Char) (rest : Str) :
    separators (ch :: rest) = separators rest + if ch = ';' ∨ ch = '|' then 1 else 0 := by
  simp [separators, List.countP_cons]

theorem separators_append (a b : Str) : separators (a ++ b) = separators a + separators b := by
  simp [separators, List.countP_append]

theorem scan_length (oob : Char) (l : Str) :
    ∀ (prev : Option Char) (s : Scan),
      (scan oob prev l s).length = separators l + openSegment l := by
  induction l with
  | nil => intro _ _; rfl
  | cons ch rest ih =>
    intro prev s
    rw [scan_cons, separators_cons]
    by_cases hsep : ch = '|' ∨ ch = ';'
    · have hb := (step_snd oob prev ch rest.isEmpty s).2 (Or.inl hsep)
      have hsep1 : ch = ';' ∨ ch = '|' := by tauto
      rw [if_pos hb, List.length_cons, ih, if_pos hsep1]
      cases rest with
      | nil => simp [openSegment, hsep1]
      | cons c rest => simp [openSegment, List.getLast?_cons_cons]; omega
    · have hsep1 : ¬ (ch = ';' ∨ ch = '|') := by tauto
      cases rest with
      | nil =>
        have hb := (step_snd oob prev ch true s).2 (Or.inr rfl)
        rw [List.isEmpty_nil, if_pos hb]
        simp [scan_nil, openSegment, hsep1, separators]
      | cons c rest =>
        have hb : ¬ (step oob prev ch (c :: rest).isEmpty s).2 = true := by
          rw [step_snd]
          simp [hsep]
        rw [if_neg hb, ih, if_neg hsep1]
        simp [openSegment, List.getLast?_cons_cons]

theorem step_fst_delim (oob : Char) (prev : Option Char) {ch : Char} (l1 l2 : Bool) (s : Scan)
    (h : isTokenChar ch = false) :
    (step oob prev ch l1 s).1 = (step oob prev ch l2 s).1 := by
  by_cases hskip : prev = some ' ' ∧ ch = ' '
  · obtain ⟨hp, hc⟩ := hskip
    subst hp hc
    simp [step_skip]
  · simp [step_delim oob _ s h hskip]

theorem scan_append_sep (oob : Char) {c : Char} (hc : c = ';' ∨ c = '|') (R : Str) (A : Str) :
    ∀ (prev : Option Char) (s : Scan),
      scan oob prev (A ++ c :: R) s = scan oob prev (A ++ [c]) s ++ scan oob (some c) R Scan.fresh := by
  have ht : isTokenChar c = false := by
    rcases hc with rfl | rfl <;> decide
  induction A with
  | nil =>
    intro prev s
    have hb : ∀ l, (step oob prev c l s).2 = true := fun l =>
      (step_snd oob prev c l s).2 (Or.inl (by tauto))
    simp only [List.nil_append, scan_cons, hb, if_true, scan_nil, List.isEmpty_nil,
      List.singleton_append]
    rw [step_fst_delim oob prev R.isEmpty true s ht]
  | cons a A ih =>
    intro prev s
    have e1 : (A ++ c :: R).isEmpty = false := by cases A <;> rfl
    have e2 : (A ++ [c]).isEmpty = false := by cases A <;> rfl
    simp only [List.cons_append, scan_cons, e1, e2]
    split_ifs
    · rw [ih]
      rfl
    · rw [ih]

theorem length_scan_sep_end (oob : Char) {c : Char} (hc : c = ';' ∨ c = '|') (A : Str)
    (prev : Option Char) (s : Scan) :
    (scan oob prev (A ++ [c]) s).length = separators (A ++ [c]) := by
  rw [scan_length]
  simp [openSegment, hc]

/-! ## C3: the word after `<` -/

theorem step_started (oob : Char) (prev : Option Char) (ch : Char) (s : Scan)
    (h : (s.token_counter ≠ 0 ∨ s.curr_substr ≠ []) ∨ isTokenChar ch = true) :
    (step oob prev ch false s).1.token_counter ≠ 0 ∨
      (step oob prev ch false s).1.curr_substr ≠ [] := by
  by_cases hskip : prev = some ' ' ∧ ch = ' '
  · obtain ⟨hp, hc⟩ := hskip
    subst hp hc
    rw [step_skip]
    rcases h with h | h
    · exact h
    · exact absurd h (by decide)
  · by_cases ht : isTokenChar ch = true
    · rw [step_token oob prev s ht]
      right
      simp
    · have ht : isTokenChar ch = false := by simpa using ht
      rw [step_delim oob false s ht hskip, boundary_token_counter]
      left
      rcases h with h | h
      · by_cases h0 : s.token_counter = 0
        · have hc : s.curr_substr ≠ [] := by tauto
          simp [h0, hc]
        · simp [h0]
      · rw [ht] at h
        exact absurd h (by decide)

theorem scan_segment_start (oob : Char) (P : Str) (hP : ∀ c ∈ P, c ≠ ';' ∧ c ≠ '|') :
    ∀ (prev : Option Char) (s : Scan),
      ∃ s1, (∀ R, R ≠ [] →
          scan oob prev (P ++ R) s = scan oob (if P = [] then prev else P.getLast?) R s1) ∧
        (((s.token_counter ≠ 0 ∨ s.curr_substr ≠ []) ∨ ∃ c ∈ P, isTokenChar c = true) →
          (s1.token_counter ≠ 0 ∨ s1.curr_substr ≠ [])) := by
  induction P with
  | nil =>
    intro prev s
    exact ⟨s, fun R _ => rfl, fun h => by simpa using h⟩
  | cons a P ih =>
    intro prev s
    have ha := hP a (by simp)
    obtain ⟨s1, h1, h2⟩ := ih (fun c hc => hP c (by simp [hc])) (some a) (step oob prev a false s).1
    refine ⟨s1, ?_, ?_⟩
    · intro R hR
      have e : (P ++ R).isEmpty = false := by cases P <;> cases R <;> simp_all
      have hb : ¬ (step oob prev a false s).2 = true := by
        rw [step_snd]
        simp [ha.1, ha.2]
      rw [List.cons_append, scan_cons, e, if_neg hb, h1 R hR]
      cases P with
      | nil => rfl
      | cons b P => simp [List.getLast?_cons_cons]
    · intro h
      apply h2
      by_cases hta : isTokenChar a = true
      · exact Or.inl (step_started oob prev a s (Or.inr hta))
      · rcases h with h | ⟨c, hc, hct⟩
        · exact Or.inl (step_started oob prev a s (Or.inl h))
        · rcases List.mem_cons.1 hc with rfl | hc
          · exact absurd hct hta
          · exact Or.inr ⟨c, hc, hct⟩

theorem Scan.setIn_cmd (x : Str) (s : Scan) :
    (s.setIn x).cmd = { s.cmd with fileIn := x } := rfl

theorem boundary_setIn (b ch : Char) {s : Scan} (h0 : s.token_counter ≠ 0)
    (hpd : s.prev_delimiter ≠ '<') (x : Str) :
    boundary b ch (s.setIn x) = (boundary b ch s).setIn x := by
  apply Scan.ext_fields
  · rw [Scan.setIn_cmd, boundary_cmd, boundary_cmd]
    simp only [Scan.setIn, h0, hpd, if_false]
    split_ifs <;> rfl
  · rw [boundary_curr]
    exact (boundary_curr b ch s).symm
  · rw [boundary_token_counter]
    exact (boundary_token_counter b ch s).symm
  · rw [boundary_prev_delimiter]
    exact (boundary_prev_delimiter b ch s).symm

theorem boundary_keeps_armed_off (b : Char) {ch : Char} {s : Scan} (h0 : s.token_counter ≠ 0)
    (hpd : s.prev_delimiter ≠ '<') (hch : ch ≠ '<') :
    (boundary b ch s).token_counter ≠ 0 ∧ (boundary b ch s).prev_delimiter ≠ '<' := by
  rw [boundary_token_counter, boundary_prev_delimiter]
  constructor
  · simp [h0]
  · split_ifs
    · exact hch
    · exact hpd

theorem step_setIn (oob : Char) (prev : Option Char) {ch : Char} (last : Bool) {s : Scan}
    (h0 : s.token_counter ≠ 0) (hpd : s.prev_delimiter ≠ '<') (hch : ch ≠ '<') (x : Str) :
    step oob prev ch last (s.setIn x) =
      ((step oob prev ch last s).1.setIn x, (step oob prev ch last s).2) ∧
    (step oob prev ch last s).1.token_counter ≠ 0 ∧
    (step oob prev ch last s).1.prev_delimiter ≠ '<' := by
  by_cases hskip : prev = some ' ' ∧ ch = ' '
  · obtain ⟨hp, hc⟩ := hskip
    subst hp hc
    simp only [step_skip]
    exact ⟨trivial, h0, hpd⟩
  · by_cases ht : isTokenChar ch = true
    · cases last with
      | false =>
        simp only [step_token oob prev _ ht]
        exact ⟨rfl, h0, hpd⟩
      | true =>
        simp only [step_token_last oob prev _ ht]
        have h0a : ({ s with curr_substr := s.curr_substr ++ [ch] } : Scan).token_counter ≠ 0 := h0
        have hpda : ({ s with curr_substr := s.curr_substr ++ [ch] } : Scan).prev_delimiter ≠ '<' :=
          hpd
        exact ⟨by rw [← boundary_setIn _ _ h0a hpda]; rfl, boundary_keeps_armed_off _ h0a hpda hch⟩
    · have ht : isTokenChar ch = false := by simpa using ht
      simp only [step_delim oob last _ ht hskip]
      exact ⟨by rw [boundary_setIn _ _ h0 hpd], boundary_keeps_armed_off _ h0 hpd hch⟩

theorem scan_setIn (oob : Char) (B : Str) (hB : ∀ c, B.head? = some c → c = ';' ∨ c = '|')
    (Q : Str) (hQ : ∀ c ∈ Q, c ≠ ';' ∧ c ≠ '|' ∧ c ≠ '<') :
    ∀ (prev : Option Char) (s : Scan), s.token_counter ≠ 0 → s.prev_delimiter ≠ '<' →
      Q ++ B ≠ [] →
      ∃ (c : Command) (n : Nat) (rest : List (Command × Nat)),
        ∀ x, scan oob prev (Q ++ B) (s.setIn x) = ({ c with fileIn := x }, n) :: rest := by
  induction Q with
  | nil =>
    intro prev s h0 hpd hne
    cases B with
    | nil => exact absurd rfl hne
    | cons b B =>
      have hb := hB b rfl
      have hbr : (step oob prev b B.isEmpty s).2 = true :=
        (step_snd oob prev b B.isEmpty s).2 (Or.inl (by tauto))
      have hb1 : b ≠ '<' := by
        rcases hb with rfl | rfl <;> decide
      refine ⟨(step oob prev b B.isEmpty s).1.cmd, (step oob prev b B.isEmpty s).1.token_counter,
        scan oob (some b) B Scan.fresh, ?_⟩
      intro x
      rw [List.nil_append, scan_cons, (step_setIn oob prev B.isEmpty h0 hpd hb1 x).1]
      simp only [hbr, if_true]
      rfl
  | cons a Q ih =>
    intro prev s h0 hpd _
    have ha := hQ a (by simp)
    by_cases hbr : (step oob prev a (Q ++ B).isEmpty s).2 = true
    · refine ⟨(step oob prev a (Q ++ B).isEmpty s).1.cmd,
        (step oob prev a (Q ++ B).isEmpty s).1.token_counter,
        scan oob (some a) (Q ++ B) Scan.fresh, ?_⟩
      intro x
      rw [List.cons_append, scan_cons, (step_setIn oob prev _ h0 hpd ha.2.2 x).1]
      simp only [hbr, if_true]
      rfl
    · have hne : Q ++ B ≠ [] := by
        intro hnil
        rw [step_snd, hnil] at hbr
        simp at hbr
      obtain ⟨c, n, rest, hc⟩ := ih (fun c hc => hQ c (by simp [hc])) (some a)
        (step oob prev a (Q ++ B).isEmpty s).1
        (step_setIn oob prev (Q ++ B).isEmpty h0 hpd ha.2.2 []).2.1
        (step_setIn oob prev (Q ++ B).isEmpty h0 hpd ha.2.2 []).2.2 hne
      refine ⟨c, n, rest, ?_⟩
      intro x
      rw [List.cons_append, scan_cons, (step_setIn oob prev _ h0 hpd ha.2.2 x).1]
      simp only [hbr]
      exact hc x

theorem scan_spaces_after_redirect (oob : Char) (m : Nat) {s3 : Scan}
    (h0 : s3.token_counter ≠ 0) (hpd : s3.prev_delimiter = '<') (hcurr : s3.curr_substr = []) :
    ∃ p4 s4, (s4.token_counter ≠ 0 ∧ s4.prev_delimiter = '<' ∧ s4.curr_substr = []) ∧
      ∀ R, R ≠ [] → scan oob (some '<') (List.replicate m ' ' ++ R) s3 = scan oob p4 R s4 := by
  cases m with
  | zero => exact ⟨some '<', s3, ⟨h0, hpd, hcurr⟩, fun R _ => rfl⟩
  | succ k =>
    refine ⟨some ' ', boundary '<' ' ' s3, ⟨?_, ?_, boundary_curr _ _ _⟩, ?_⟩
    · rw [boundary_token_counter]
      simp [h0]
    · rw [boundary_prev_delimiter]
      simp [hpd]
    · intro R hR
      have e : (List.replicate k ' ' ++ R).isEmpty = false := by
        cases k <;> cases R <;> simp_all [List.replicate_succ]
      have hs : step oob (some '<') ' ' false s3 = (boundary '<' ' ' s3, false) := by
        rw [step_delim oob _ _ (by decide) (by simp)]
        simp
      rw [List.replicate_succ, List.cons_append, scan_cons, e, hs, if_neg (by simp),
        scan_spaces_skip oob k _ _ hR]

theorem scan_armed_word (oob : Char) (Q B : Str)
    (hQ : ∀ c ∈ Q, c ≠ ';' ∧ c ≠ '|' ∧ c ≠ '<')
    (hQ0 : ∀ c, Q.head? = some c → isTokenChar c = false)
    (hB : ∀ c, B.head? = some c → c = ';' ∨ c = '|')
    (p4 : Option Char) {s4 : Scan} (h0 : s4.token_counter ≠ 0) (hpd : s4.prev_delimiter = '<')
    (hcurr : s4.curr_substr = []) :
    ∃ c0 : Command, ∀ f, IsWord f → ∃ n rest,
      scan oob p4 (f ++ (Q ++ B)) s4 = ({ c0 with fileIn := f }, n) :: rest := by
  have hflush : ∀ (b ch : Char) (f : Str),
      (boundary b ch { s4 with curr_substr := s4.curr_substr ++ f }).cmd =
        { s4.cmd with fileIn := f } := by
    intro b ch f
    rw [boundary_cmd]
    simp [h0, hpd, hcurr]
  cases hR2 : Q ++ B with
  | nil =>
    refine ⟨s4.cmd, fun f hf => ?_⟩
    obtain ⟨b, ch, _, e⟩ := scan_word_end oob f hf.2 hf.1 p4 s4
    rw [List.append_nil, e, hflush]
    exact ⟨_, [], rfl⟩
  | cons d R3 =>
    have hd : isTokenChar d = false ∧ d ≠ '<' := by
      cases Q with
      | nil =>
        rw [List.nil_append] at hR2
        have := hB d (by rw [hR2]; rfl)
        rcases this with rfl | rfl <;> exact ⟨by decide, by decide⟩
      | cons q Q =>
        rw [List.cons_append] at hR2
        have hq : q = d := (List.cons.inj hR2).1
        subst hq
        exact ⟨hQ0 q rfl, (hQ q (by simp)).2.2⟩
    have hstate : ∀ (p : Char), isTokenChar p = true → ∀ f : Str,
        boundary p d { s4 with curr_substr := s4.curr_substr ++ f } =
          (⟨s4.cmd, [], s4.token_counter, d⟩ : Scan).setIn f := by
      intro p hp f
      rw [isTokenChar_iff] at hp
      apply Scan.ext_fields
      · rw [hflush]
        rfl
      · exact boundary_curr _ _ _
      · rw [boundary_token_counter]
        simp [h0, Scan.setIn]
      · rw [boundary_prev_delimiter]
        simp [hp, Scan.setIn]
    have hstep : ∀ f, IsWord f → ∃ p, isTokenChar p = true ∧
        scan oob p4 (f ++ d :: R3) s4 =
          if (d = '|' ∨ d = ';') ∨ R3.isEmpty = true then
            ({ s4.cmd with fileIn := f }, s4.token_counter) :: scan oob (some d) R3 Scan.fresh
          else scan oob (some d) R3 ((⟨s4.cmd, [], s4.token_counter, d⟩ : Scan).setIn f) := by
      intro f hf
      obtain ⟨p, hp, e⟩ := scan_word oob f hf.2 hf.1 p4 s4 (d :: R3) (by simp)
      refine ⟨p, hp, ?_⟩
      have hne : ¬ (some p = some ' ' ∧ d = ' ') := by
        rintro ⟨h, _⟩
        rw [Option.some.inj h] at hp
        revert hp
        decide
      rw [e, scan_cons]
      have hsnd := step_snd oob (some p) d R3.isEmpty
        { s4 with curr_substr := s4.curr_substr ++ f }
      by_cases hbr : (d = '|' ∨ d = ';') ∨ R3.isEmpty = true
      · rw [if_pos (hsnd.2 hbr), if_pos hbr, step_delim oob _ _ hd.1 hne]
        simp only [Option.getD_some, hstate p hp f]
        rfl
      · rw [if_neg (fun h => hbr (hsnd.1 h)), if_neg hbr, step_delim oob _ _ hd.1 hne]
        simp only [Option.getD_some, hstate p hp f]
    by_cases hbr : (d = '|' ∨ d = ';') ∨ R3.isEmpty = true
    · refine ⟨s4.cmd, fun f hf => ?_⟩
      obtain ⟨p, _, e⟩ := hstep f hf
      rw [e, if_pos hbr]
      exact ⟨_, _, rfl⟩
    · have hR3 : R3 ≠ [] := by
        intro h
        exact hbr (Or.inr (by simp [h]))
      cases Q with
      | nil =>
        rw [List.nil_append] at hR2
        have := hB d (by rw [hR2]; rfl)
        exact absurd (Or.inl (by tauto)) hbr
      | cons q Q =>
        rw [List.cons_append] at hR2
        have hQ3 : Q ++ B = R3 := (List.cons.inj hR2).2
        obtain ⟨c, n, rest, hc⟩ := scan_setIn oob B hB Q (fun c hc => hQ c (by simp [hc]))
          (some d) (⟨s4.cmd, [], s4.token_counter, d⟩ : Scan) h0 hd.2 (by rw [hQ3]; exact hR3)
        refine ⟨c, fun f hf => ?_⟩
        obtain ⟨p, _, e⟩ := hstep f hf
        rw [e, if_neg hbr, ← hQ3, hc f]
        exact ⟨_, _, rfl⟩

theorem scan_redirect_segment (oob : Char) (P : Str) (m : Nat) (Q B : Str)
    (hP : ∀ c ∈ P, c ≠ ';' ∧ c ≠ '|') (htok : ∃ c ∈ P, isTokenChar c = true)
    (hlast : ∀ c, P.getLast? = some c → c ≠ '<' ∧ c ≠ '>')
    (hQ : ∀ c ∈ Q, c ≠ ';' ∧ c ≠ '|' ∧ c ≠ '<')
    (hQ0 : ∀ c, Q.head? = some c → isTokenChar c = false)
    (hB : ∀ c, B.head? = some c → c = ';' ∨ c = '|') (prev0 : Option Char) :
    ∃ c0 : Command, ∀ f, IsWord f → ∃ n rest,
      scan oob prev0 (P ++ '<' :: (List.replicate m ' ' ++ (f ++ (Q ++ B)))) Scan.fresh =
        ({ c0 with fileIn := f }, n) :: rest := by
  obtain ⟨s2, h1, h2⟩ := scan_segment_start oob P hP prev0 Scan.fresh
  have hst := h2 (Or.inr htok)
  have hPne : P ≠ [] := by
    rintro rfl
    obtain ⟨c, hc, _⟩ := htok
    simp at hc
  obtain ⟨pl, hpl⟩ : ∃ pl, P.getLast? = some pl := by
    cases h : P.getLast? with
    | none => exact absurd (List.getLast?_eq_none_iff.1 h) hPne
    | some pl => exact ⟨pl, rfl⟩
  have hpl1 := hlast pl hpl
  have hpl2 := hP pl (List.mem_of_getLast?_eq_some hpl)
  have hs3 : (boundary pl '<' s2).token_counter ≠ 0 ∧ (boundary pl '<' s2).prev_delimiter = '<' ∧
      (boundary pl '<' s2).curr_substr = [] := by
    refine ⟨?_, ?_, boundary_curr _ _ _⟩
    · rw [boundary_token_counter]
      by_cases h0 : s2.token_counter = 0
      · have hc : s2.curr_substr ≠ [] := by tauto
        simp [h0, hc]
      · simp [h0]
    · rw [boundary_prev_delimiter]
      simp [hpl1.1, hpl1.2, hpl2.1, hpl2.2]
  obtain ⟨p4, s4, ⟨a1, a2, a3⟩, h4⟩ := scan_spaces_after_redirect oob m hs3.1 hs3.2.1 hs3.2.2
  obtain ⟨c0, hc0⟩ := scan_armed_word oob Q B hQ hQ0 hB p4 a1 a2 a3
  refine ⟨c0, fun f hf => ?_⟩
  have hfne : f ++ (Q ++ B) ≠ [] := by
    have := hf.1
    simp [this]
  have e : (List.replicate m ' ' ++ (f ++ (Q ++ B))).isEmpty = false := by
    cases m <;> cases f <;> simp_all [List.replicate_succ]
  have hs : step oob (some pl) '<' false s2 = (boundary pl '<' s2, false) := by
    rw [step_delim oob _ _ (by decide) (by simp)]
    simp
  rw [h1 _ (by simp), if_neg hPne, hpl, scan_cons, e, hs, if_neg (by simp), h4 _ hfne]
  exact hc0 f hf

/-- C3, amended: take a segment `P ++ "<" ++ spaces ++ f ++ Q` of a line (the
line is `A ++ segment ++ B`, where `A` is empty or ends with a separator and
`B` is empty or starts with one, and `P`, `Q` contain no separator) in which
the `<` comes after a token character of the segment (`P` contains one), is
not directly preceded by `<` or `>`, is followed after zero or more spaces by
the token `f` (`Q` does not start with a token character) and is the last
`<` of the segment (`Q` contains none). Then the slot of the segment, which
is the slot number `separators A`, has the input file `f`, and apart from
the input file the slot is the same command `c0` whatever the word `f` is:
`f` is neither its executable nor one of its arguments. -/
theorem word_after_redirect_is_input_file (oob : Char) (A P : Str) (m : Nat) (Q B : Str)
    (hA : ∀ c, A.getLast? = some c → c = ';' ∨ c = '|')
    (hP : ∀ c ∈ P, c ≠ ';' ∧ c ≠ '|') (htok : ∃ c ∈ P, isTokenChar c = true)
    (hlast : ∀ c, P.getLast? = some c → c ≠ '<' ∧ c ≠ '>')
    (hQ : ∀ c ∈ Q, c ≠ ';' ∧ c ≠ '|' ∧ c ≠ '<')
    (hQ0 : ∀ c, Q.head? = some c → isTokenChar c = false)
    (hB : ∀ c, B.head? = some c → c = ';' ∨ c = '|') :
    ∃ c0 : Command, ∀ f, IsWord f →
      (Parser.new oob (A ++ (P ++ '<' :: (List.replicate m ' ' ++ (f ++ (Q ++ B)))))).tokens[
        separators A]? = some { c0 with fileIn := f } := by
  rcases List.eq_nil_or_concat A with rfl | ⟨A0, c, hAc⟩
  swap
  · rw [List.concat_eq_append] at hAc
    subst hAc
    have hc : c = ';' ∨ c = '|' := hA c (by simp)
    obtain ⟨c0, hc0⟩ := scan_redirect_segment oob P m Q B hP htok hlast hQ hQ0 hB (some c)
    refine ⟨c0, fun f hf => ?_⟩
    obtain ⟨n, rest, e⟩ := hc0 f hf
    have hlen := length_scan_sep_end oob hc A0 none Scan.fresh
    simp only [Parser.new, List.append_assoc, List.singleton_append]
    rw [scan_append_sep oob hc, e, List.map_append, List.getElem?_append_right (by simp [hlen])]
    simp [hlen]
  · obtain ⟨c0, hc0⟩ := scan_redirect_segment oob P m Q B hP htok hlast hQ hQ0 hB none
    refine ⟨c0, fun f hf => ?_⟩
    obtain ⟨n, rest, e⟩ := hc0 f hf
    simp [Parser.new, e, separators]

theorem word_after_redirect_is_input_file_witness :
    ((∀ c, "ls;".toList.getLast? = some c → c = ';' ∨ c = '|') ∧
      (∀ c ∈ "cat -n ".toList, c ≠ ';' ∧ c ≠ '|') ∧
      (∃ c ∈ "cat -n ".toList, isTokenChar c = true) ∧
      (∀ c, "cat -n ".toList.getLast? = some c → c ≠ '<' ∧ c ≠ '>') ∧
      (∀ c ∈ " -v >out".toList, c ≠ ';' ∧ c ≠ '|' ∧ c ≠ '<') ∧
      (∀ c, " -v >out".toList.head? = some c → isTokenChar c = false) ∧
      (∀ c, "|wc".toList.head? = some c → c = ';' ∨ c = '|')) ∧
    ∃ c0 : Command, ∀ f, IsWord f →
      (Parser.new '0' ("ls;".toList ++ ("cat -n ".toList ++
        '<' :: (List.replicate 2 ' ' ++ (f ++ (" -v >out".toList ++ "|wc".toList)))))).tokens[
          separators "ls;".toList]? = some { c0 with fileIn := f } :=
  have h1 : ∀ c, "ls;".toList.getLast? = some c → c = ';' ∨ c = '|' := by decide
  have h2 : ∀ c ∈ "cat -n ".toList, c ≠ ';' ∧ c ≠ '|' := by decide
  have h3 : ∃ c ∈ "cat -n ".toList, isTokenChar c = true := ⟨'c', by decide, by decide⟩
  have h4 : ∀ c, "cat -n ".toList.getLast? = some c → c ≠ '<' ∧ c ≠ '>' := by decide
  have h5 : ∀ c ∈ " -v >out".toList, c ≠ ';' ∧ c ≠ '|' ∧ c ≠ '<' := by decide
  have h6 : ∀ c, " -v >out".toList.head? = some c → isTokenChar c = false := by decide
  have h7 : ∀ c, "|wc".toList.head? = some c → c = ';' ∨ c = '|' := by decide
  ⟨⟨h1, h2, h3, h4, h5, h6, h7⟩,
    word_after_redirect_is_input_file '0' "ls;".toList "cat -n ".toList 2 " -v >out".toList
      "|wc".toList h1 h2 h3 h4 h5 h6 h7⟩

/-- C3 as stated fails. In the line `<f` the token after `<` becomes the
executable and argument 0 of the slot, whose input file stays empty. In
`a ><f` the token after `<` becomes the output file. In `a<f<g` the token
`f` after the first `<` is not the input file of the slot, which is `g`. -/
theorem word_after_redirect_counterexample :
    (∀ oob : Char, (Parser.new oob "<f".toList).tokens = [Command.plain ['f'] []]) ∧
    (Command.plain ['f'] []).exec = ['f'] ∧ (Command.plain ['f'] []).fileIn = [] ∧
    (∀ oob : Char, (Parser.new oob "a ><f".toList).tokens =
      [{ Command.plain ['a'] [] with fileOut := ['f'] }]) ∧
    (∀ oob : Char, (Parser.new oob "a<f<g".toList).tokens =
      [{ Command.plain ['a'] [] with fileIn := ['g'] }]) := by
  refine ⟨fun oob => ?_, rfl, rfl, fun oob => rfl, fun oob => rfl⟩
  rw [Parser.new_oob '0' oob]
  rfl

/-! ## C8: the log after twenty lines -/

theorem mainLine_congr (M M1 : Nat) (oob oob1 : Char) (sh : Shell) (input : Str)
    (h : separators input + 1 > M ↔ separators input + 1 > M1) :
    mainLine M oob sh input = mainLine M1 oob1 sh input := by
  unfold mainLine
  rw [Parser.new_oob oob1 oob]
  have e : (Parser.new oob1 input).getStatus M = (Parser.new oob1 input).getStatus M1 := by
    have hstr : (Parser.new oob1 input).str = input := rfl
    unfold Parser.getStatus
    rw [hstr]
    by_cases h1 : separators input + 1 > M
    · rw [if_pos h1, if_pos (h.1 h1)]
    · rw [if_neg h1, if_neg (fun h2 => h1 (h.2 h2))]
  simp only [e]

theorem mainLoop_congr (M : Nat) (oob : Char) (inputs : List Str)
    (h : ∀ input ∈ inputs, separators input = 0) :
    ∀ sh : Shell, mainLoop (M + 1) oob sh inputs = mainLoop 1 '0' sh inputs := by
  induction inputs with
  | nil => intro sh; rfl
  | cons input inputs ih =>
    intro sh
    have e := mainLine_congr (M + 1) 1 oob '0' sh input (by
      rw [h input (by simp)]
      omega)
    simp only [mainLoop, e]
    cases mainLine 1 '0' sh input with
    | none => rfl
    | some r =>
      obtain ⟨sh1, events, code⟩ := r
      cases code with
      | some code => rfl
      | none =>
        simp only
        rw [ih (fun x hx => h x (by simp [hx]))]

/-- C8 (the code departs from the claim): after the twenty distinct lines
`c01` .. `c20`, the pass of the main loop for the line `h` prints a listing
of twenty entries in which `c12` .. `c20` and `h` appear twice each (then it
forks the command `h`): each line is appended to the log by the main loop
(mysh.cpp:81-85) and once more by `Parser::history` (parser.cpp:75-78). The
claim says the listing shows the twenty most recent lines once each. -/
theorem history_listing_repeats_lines (MAX_COMMANDS : Nat) (oob : Char) :
    (mainLoop (MAX_COMMANDS + 1) oob Shell.init (twentyLines ++ [['h']])).map
        (fun r => (r.2.1.getLast?, r.2.2)) =
      some (some ((listing 0 (["c12", "c12", "c13", "c13", "c14", "c14", "c15", "c15", "c16",
          "c16", "c17", "c17", "c18", "c18", "c19", "c19", "c20", "c20", "h", "h"].map
            String.toList)).map Event.print ++ [Event.spawn 0 none none, Event.waitpid 0]),
        none) := by
  rw [mainLoop_congr MAX_COMMANDS oob _ (by decide)]
  set_option maxRecDepth 100000 in decide

/-! ## C9: `h-N` -/

theorem hMinus_facts (N : Nat) (h1 : 1 ≤ N) (h2 : N ≤ 20) :
    hMinus N ≠ ['h'] ∧ ((hMinus N).length = 3 ∨ (hMinus N).length = 4) ∧
      charAt (hMinus N) 0 = 'h' ∧ charAt (hMinus N) 1 = '-' ∧
      historyIndex (hMinus N) = (N : Int) - 1 := by
  interval_cases N <;> decide

theorem history_hMinus (p : Parser) (idx : Nat) (log : List Str) (N : Nat)
    (hexec : (p.tokens.getD idx Command.init).exec = hMinus N) (h1 : 1 ≤ N) (h2 : N ≤ 20) :
    p.history log idx =
      if (N : Int) - 1 < ((pushLine log p.str).length : Int) then
        if (if (pushLine log p.str).length = 20 then (N : Int) - 1 - 1 else (N : Int) - 1) < 0 then
          none
        else
          some (pushLine log p.str,
            [Output.entry ((pushLine log p.str).getD
              (if (pushLine log p.str).length = 20 then (N : Int) - 1 - 1
                else (N : Int) - 1).toNat [])])
      else some (pushLine log p.str, []) := by
  obtain ⟨f1, f2, f3, f4, f5⟩ := hMinus_facts N h1 h2
  have hneg : ¬ ((N : Int) - 1 < 0) := by omega
  unfold Parser.history pushLine
  simp only [hexec, f1, f2, f3, f4, f5, if_false, and_self, if_true, hneg, List.nil_append]

/-- C9, amended: let `Parser::history` be called for a slot whose executable
is `h-N`, `N >= 1`. When the log holds fewer than 20 entries once the line is
appended, and `N` is at most their number, the call prints the `N`-th entry
of that log, the one that the listing of `h` numbers `N`. When the log held
20 entries before the call, so that the call dropped the oldest one, and
`2 <= N <= 20`, the call prints the entry that was the `N`-th before the
oldest was dropped, which is entry `N - 1` of the log that is kept. -/
theorem history_prints_entry (p : Parser) (idx : Nat) (log : List Str) (N : Nat)
    (hexec : (p.tokens.getD idx Command.init).exec = hMinus N) (h1 : 1 ≤ N) :
    (log.length < 19 → N ≤ (pushLine log p.str).length →
      p.history log idx =
        some (pushLine log p.str, [Output.entry ((pushLine log p.str).getD (N - 1) [])])) ∧
    (log.length = 20 → 2 ≤ N → N ≤ 20 →
      p.history log idx = some (pushLine log p.str, [Output.entry (log.getD (N - 1) [])]) ∧
      log.getD (N - 1) [] = (pushLine log p.str).getD (N - 1 - 1) []) := by
  constructor
  · intro hlen hN
    have e : (pushLine log p.str).length = log.length + 1 := by
      simp [pushLine, show log.length ≠ 20 by omega]
    rw [e] at hN
    rw [history_hMinus p idx log N hexec h1 (by omega), e]
    have c1 : (N : Int) - 1 < ((log.length + 1 : Nat) : Int) := by omega
    have c2 : ¬ (log.length + 1 = 20) := by omega
    have c3 : ¬ ((N : Int) - 1 < 0) := by omega
    have c4 : ((N : Int) - 1).toNat = N - 1 := by omega
    simp only [c1, c2, c3, c4, if_true, if_false]
  · intro hlen hN2 hN20
    have hpush : pushLine log p.str = log.tail ++ [p.str] := by simp [pushLine, hlen]
    have e : (pushLine log p.str).length = 20 := by
      rw [hpush]
      simp [hlen]
    have hget : log.getD (N - 1) [] = (pushLine log p.str).getD (N - 1 - 1) [] := by
      rw [hpush]
      cases log with
      | nil => simp at hlen
      | cons a log =>
        have hl : log.length = 19 := by simpa using hlen
        obtain ⟨k, rfl⟩ : ∃ k, N = k + 2 := ⟨N - 2, by omega⟩
        simp only [List.tail_cons, Nat.add_sub_cancel, show k + 2 - 1 = k + 1 by omega,
          List.getD_cons_succ]
        rw [List.getD_append _ _ _ _ (by omega)]
    refine ⟨?_, hget⟩
    rw [history_hMinus p idx log N hexec h1 hN20, e]
    have c1 : (N : Int) - 1 < ((20 : Nat) : Int) := by omega
    have c3 : ¬ ((N : Int) - 1 - 1 < 0) := by omega
    have c4 : ((N : Int) - 1 - 1).toNat = N - 1 - 1 := by omega
    simp only [c1, c3, c4, if_true, if_false, hget]

theorem history_prints_entry_witness :
    ((Parser.new '0' "h-3".toList).tokens.getD 0 Command.init).exec = hMinus 3 ∧ 1 ≤ 3 ∧
    ((twentyLines.take 5).length < 19 →
      3 ≤ (pushLine (twentyLines.take 5) (Parser.new '0' "h-3".toList).str).length →
      (Parser.new '0' "h-3".toList).history (twentyLines.take 5) 0 =
        some (pushLine (twentyLines.take 5) (Parser.new '0' "h-3".toList).str,
          [Output.entry ((pushLine (twentyLines.take 5)
            (Parser.new '0' "h-3".toList).str).getD (3 - 1) [])])) ∧
    (twentyLines.length = 20 → 2 ≤ 3 → 3 ≤ 20 →
      (Parser.new '0' "h-3".toList).history twentyLines 0 =
        some (pushLine twentyLines (Parser.new '0' "h-3".toList).str,
          [Output.entry (twentyLines.getD (3 - 1) [])]) ∧
      twentyLines.getD (3 - 1) [] =
        (pushLine twentyLines (Parser.new '0' "h-3".toList).str).getD (3 - 1 - 1) []) :=
  ⟨by decide, by decide,
    (history_prints_entry (Parser.new '0' "h-3".toList) 0 (twentyLines.take 5) 3
      (by decide) (by decide)).1,
    (history_prints_entry (Parser.new '0' "h-3".toList) 0 twentyLines 3
      (by decide) (by decide)).2⟩

/-- C9 as stated fails: with the twenty lines `c01` .. `c20` in the log, the
call for `h-3` leaves the log `c02` .. `c20`, `h-3`, whose third entry is
`c04`, the one a listing numbers 3; the call prints `c03`. -/
theorem history_prints_entry_counterexample :
    (Parser.new '0' "h-3".toList).history twentyLines 0 =
      some (pushLine twentyLines "h-3".toList, [Output.entry "c03".toList]) ∧
    (pushLine twentyLines "h-3".toList).getD (3 - 1) [] = "c04".toList ∧
    (listing 0 (pushLine twentyLines "h-3".toList)).getD (3 - 1) (Output.entry []) =
      Output.numbered 3 "c04".toList := by
  decide

/-! ## C10: a slot whose executable is `h` -/

theorem execLoop_events_mono (tokens : List Command) :
    ∀ (i : Nat) (e : Exec) (x : Event), x ∈ e.events → x ∈ (execLoop i tokens e).1.events := by
  induction tokens with
  | nil => intro i e x hx; exact hx
  | cons command rest ih =>
    intro i e x hx
    unfold execLoop
    split_ifs
    all_goals first
      | exact hx
      | (apply ih; simp [hx])

theorem execLoop_spawns (tokens : List Command) :
    ∀ (i : Nat) (e : Exec) (k : Nat) (c : Command), tokens[k]? = some c →
      c.exec ≠ ['e', 'x', 'i', 't'] → c.empty = false → c.pipeIn = false → c.pipeOut = false →
      (∀ j d, j < k → tokens[j]? = some d → d.exec ≠ ['e', 'x', 'i', 't']) →
      Event.spawn (i + k) none none ∈ (execLoop i tokens e).1.events := by
  induction tokens with
  | nil => intro i e k c hk; simp at hk
  | cons command rest ih =>
    intro i e k c hk hexit hempty hin hout hbefore
    cases k with
    | zero =>
      have hc : command = c := by simpa using hk
      subst hc
      unfold execLoop
      simp only [hexit, hempty, hin, hout, if_false, Bool.false_eq_true, or_self]
      apply execLoop_events_mono
      split_ifs <;> simp
    | succ k =>
      have h0 : command.exec ≠ ['e', 'x', 'i', 't'] := hbefore 0 command (by omega) (by simp)
      have hk1 : rest[k]? = some c := by simpa using hk
      have hb1 : ∀ j d, j < k → rest[j]? = some d → d.exec ≠ ['e', 'x', 'i', 't'] := by
        intro j d hj hd
        exact hbefore (j + 1) d (by omega) (by simpa using hd)
      have e1 : i + (k + 1) = (i + 1) + k := by omega
      unfold execLoop
      rw [if_neg h0, e1]
      split_ifs
      all_goals exact ih _ _ k c hk1 hexit hempty hin hout hb1

/-- C10, amended: for every parsed line, a command slot whose executable is
`h` has the history log printed for it (`Parser::history` appends the line
and prints the whole log, numbered from 1), and the execution loop then
treats the slot like any other non-empty slot: unless an earlier slot of the
line is `exit`, it forks a process for the slot. -/
theorem h_slot_listed_and_forked (oob : Char) (str : Str) (k : Nat) (c : Command)
    (hk : (Parser.new oob str).tokens[k]? = some c) (hc : c.exec = ['h'])
    (hbefore : ∀ j d, j < k → (Parser.new oob str).tokens[j]? = some d →
      d.exec ≠ ['e', 'x', 'i', 't']) :
    (∀ log : List Str, (Parser.new oob str).history log k =
      some (pushLine log str, listing 0 (pushLine log str))) ∧
    (∀ e : Exec, Event.spawn k none none ∈
      (execLoop 0 (Parser.new oob str).getTokens e).1.events) := by
  constructor
  · intro log
    have e : ((Parser.new oob str).tokens.getD k Command.init).exec = ['h'] := by
      rw [List.getD_eq_getElem?_getD, hk]
      exact hc
    unfold Parser.history pushLine
    simp only [e, if_true]
    rfl
  · intro e
    obtain ⟨p, t, ht, rfl⟩ := tokens_inv oob str c (List.getElem?_mem hk)
    have h0 : t.token_counter ≠ 0 := by
      intro h0
      rw [ht.untouched h0] at hc
      simp [Command.init] at hc
    have := execLoop_spawns (Parser.new oob str).tokens 0 e k t.cmd hk (by rw [hc]; decide)
      (ht.named h0).1 ht.flags.1 ht.flags.2.1 hbefore
    simpa [Parser.getTokens] using this

theorem h_slot_listed_and_forked_witness :
    ((Parser.new '0' "ls ; h".toList).tokens[1]? = some (Command.plain ['h'] []) ∧
      (Command.plain ['h'] []).exec = ['h'] ∧
      (∀ j d, j < 1 → (Parser.new '0' "ls ; h".toList).tokens[j]? = some d →
        d.exec ≠ ['e', 'x', 'i', 't'])) ∧
    (∀ log : List Str, (Parser.new '0' "ls ; h".toList).history log 1 =
      some (pushLine log "ls ; h".toList, listing 0 (pushLine log "ls ; h".toList))) ∧
    (∀ e : Exec, Event.spawn 1 none none ∈
      (execLoop 0 (Parser.new '0' "ls ; h".toList).getTokens e).1.events) :=
  have h1 : (Parser.new '0' "ls ; h".toList).tokens[1]? = some (Command.plain ['h'] []) := by
    decide
  have h2 : ∀ j d, j < 1 → (Parser.new '0' "ls ; h".toList).tokens[j]? = some d →
      d.exec ≠ ['e', 'x', 'i', 't'] := by
    intro j d hj hd
    have hj0 : j = 0 := by omega
    subst hj0
    have h0 : (Parser.new '0' "ls ; h".toList).tokens[0]? = some (Command.plain ['l', 's'] []) := by
      decide
    rw [h0] at hd
    rw [← Option.some.inj hd]
    decide
  ⟨⟨h1, rfl, h2⟩, h_slot_listed_and_forked '0' "ls ; h".toList 1 (Command.plain ['h'] []) h1 rfl h2⟩

/-- C10 as stated fails: for the line `h` the pass of the main loop prints
the log (which holds the line twice) and then forks a process for slot 0,
the slot of `h`, and waits for it. -/
theorem h_slot_is_forked_counterexample :
    (Parser.new '0' ['h']).tokens = [Command.plain ['h'] []] ∧
    mainLine 8 '0' Shell.init ['h'] =
      some ({ history := [['h'], ['h']], ignore_sig := true, child_pid := some 0 },
        [Event.print (Output.numbered 1 ['h']), Event.print (Output.numbered 2 ['h']),
          Event.spawn 0 none none, Event.waitpid 0], none) := by
  decide

/-! ## C11: where the handler sends a signal -/

/-- C11: for the interrupt and the suspend signal, `signal_handler` redraws
the prompt and sends no signal when `ignore_sig` is true (routing to the
child is off); when `ignore_sig` is false it sends the same signal to
`child_pid`, writes a line feed, and does not redraw the prompt. -/
theorem signal_handler_routes (s : Signal) (hs : s = Signal.SIGINT ∨ s = Signal.SIGTSTP)
    (child_pid : Option Nat) :
    signal_handler s true child_pid = [HandlerAction.prompt] ∧
    signal_handler s false child_pid =
      [HandlerAction.kill child_pid s, HandlerAction.newline] := by
  rcases hs with rfl | rfl <;> exact ⟨rfl, rfl⟩

theorem signal_handler_routes_witness :
    (Signal.SIGINT = Signal.SIGINT ∨ Signal.SIGINT = Signal.SIGTSTP) ∧
    signal_handler Signal.SIGINT true (some 2) = [HandlerAction.prompt] ∧
    signal_handler Signal.SIGINT false (some 2) =
      [HandlerAction.kill (some 2) Signal.SIGINT, HandlerAction.newline] :=
  ⟨Or.inl rfl, signal_handler_routes Signal.SIGINT (Or.inl rfl) (some 2)⟩

/-! ## C14: the number of slots -/

theorem scan_separators (oob : Char) (seps : Str) (hseps : ∀ c ∈ seps, c = ';' ∨ c = '|')
    (rest : Str) :
    ∀ prev : Option Char, ∃ p, scan oob prev (seps ++ rest) Scan.fresh =
      List.replicate seps.length (Command.init, 0) ++ scan oob p rest Scan.fresh := by
  induction seps with
  | nil => intro prev; exact ⟨prev, rfl⟩
  | cons c seps ih =>
    intro prev
    have hc := hseps c (by simp)
    have ht : isTokenChar c = false := by
      rcases hc with rfl | rfl <;> decide
    have hns : ¬ (prev = some ' ' ∧ c = ' ') := by
      rintro ⟨_, rfl⟩
      revert hc
      decide
    obtain ⟨p, hp⟩ := ih (fun x hx => hseps x (by simp [hx])) (some c)
    refine ⟨p, ?_⟩
    have hb : (step oob prev c (seps ++ rest).isEmpty Scan.fresh).2 = true :=
      (step_snd oob prev c _ Scan.fresh).2 (Or.inl (by tauto))
    rw [List.cons_append, scan_cons, if_pos hb, hp, step_delim oob _ _ ht hns]
    simp [boundary_cmd, boundary_token_counter, Scan.fresh, List.replicate_succ]

theorem scan_words_around_separators (oob : Char) (a b : Str) (c : Char) (seps : Str)
    (ha : IsWord a) (hb : IsWord b) (hc : c = ';' ∨ c = '|')
    (hseps : ∀ x ∈ seps, x = ';' ∨ x = '|') (prev : Option Char) :
    scan oob prev (a ++ (c :: seps ++ b)) Scan.fresh =
      (Command.plain a [], 1) :: (List.replicate seps.length (Command.init, 0) ++
        [(Command.plain b [], 1)]) := by
  have ht : isTokenChar c = false := by
    rcases hc with rfl | rfl <;> decide
  obtain ⟨p, hp, e⟩ := scan_word oob a ha.2 ha.1 prev Scan.fresh (c :: seps ++ b) (by simp)
  have hns : ¬ (some p = some ' ' ∧ c = ' ') := by
    rintro ⟨_, rfl⟩
    revert hc
    decide
  obtain ⟨q, hq⟩ := scan_separators oob seps hseps b (some c)
  obtain ⟨b1, ch, _, e2⟩ := scan_word_end oob b hb.2 hb.1 q Scan.fresh
  have hbr : (step oob (some p) c (seps ++ b).isEmpty
      { Scan.fresh with curr_substr := Scan.fresh.curr_substr ++ a }).2 = true :=
    (step_snd oob (some p) c _ _).2 (Or.inl (by tauto))
  rw [e, List.cons_append, scan_cons, if_pos hbr, hq, e2, step_delim oob _ _ ht hns]
  obtain ⟨f1, f2⟩ := boundary_first_word p c '0' ha.1
  obtain ⟨g1, g2⟩ := boundary_first_word b1 ch '0' hb.1
  simp only [Scan.fresh, List.nil_append, Option.getD_some] at f1 f2 g1 g2 ⊢
  rw [f1, f2, g1, g2]

/-- C14: for every line, the number of slots that the constructor fills is
the number of `;` and `|` of the line, plus one exactly when the line is not
empty and its last character is neither `;` nor `|`. In particular the empty
line gives no slot, and two words with `k + 1` consecutive separators
between them give the slot of the first word, `k` empty slots, and the slot
of the second word. -/
theorem slot_count (oob : Char) :
    (∀ str : Str, (Parser.new oob str).tokens.length = separators str + openSegment str) ∧
    (Parser.new oob []).tokens = [] ∧
    (∀ (a b : Str) (c : Char) (seps : Str), IsWord a → IsWord b → (c = ';' ∨ c = '|') →
      (∀ x ∈ seps, x = ';' ∨ x = '|') →
      (Parser.new oob (a ++ (c :: seps ++ b))).tokens =
        Command.plain a [] :: (List.replicate seps.length Command.init ++
          [Command.plain b []])) := by
  refine ⟨fun str => ?_, rfl, ?_⟩
  · simp [Parser.new, scan_length]
  · intro a b c seps ha hb hc hseps
    simp only [Parser.new]
    rw [scan_words_around_separators oob a b c seps ha hb hc hseps none]
    simp

/-! ## C19: the characters of the strings of a slot -/

/-- C19: for every line and every slot that the constructor fills, every
string of the argument list is non-empty and free of space, `<`, `>`, `|`,
`;`; the executable is argument 0 when the slot is not empty and is free of
these characters; so are the input file and the output file. -/
theorem slot_strings_are_words (oob : Char) (str : Str) :
    ∀ c ∈ (Parser.new oob str).tokens,
      (∀ a ∈ c.args, IsWord a) ∧
      (c.empty = false → c.args.head? = some c.exec) ∧
      (∀ x ∈ c.exec, isTokenChar x = true) ∧
      (∀ x ∈ c.fileIn, isTokenChar x = true) ∧
      (∀ x ∈ c.fileOut, isTokenChar x = true) := by
  intro c hc
  obtain ⟨p, t, ht, rfl⟩ := tokens_inv oob str c hc
  refine ⟨ht.words, ?_, ?_, ht.fileInChars, ht.fileOutChars⟩
  · intro he
    by_cases h0 : t.token_counter = 0
    · rw [ht.untouched h0] at he
      simp [Command.init] at he
    · exact (ht.named h0).2.2
  · by_cases h0 : t.token_counter = 0
    · rw [ht.untouched h0]
      simp [Command.init]
    · exact (ht.named h0).2.1.2

theorem slot_strings_are_words_witness :
    Command.plain ['l', 's'] [['-', 'l']] ∈ (Parser.new '0' "ls -l ; pwd".toList).tokens ∧
    ((∀ a ∈ (Command.plain ['l', 's'] [['-', 'l']]).args, IsWord a) ∧
      ((Command.plain ['l', 's'] [['-', 'l']]).empty = false →
        (Command.plain ['l', 's'] [['-', 'l']]).args.head? =
          some (Command.plain ['l', 's'] [['-', 'l']]).exec) ∧
      (∀ x ∈ (Command.plain ['l', 's'] [['-', 'l']]).exec, isTokenChar x = true) ∧
      (∀ x ∈ (Command.plain ['l', 's'] [['-', 'l']]).fileIn, isTokenChar x = true) ∧
      (∀ x ∈ (Command.plain ['l', 's'] [['-', 'l']]).fileOut, isTokenChar x = true)) :=
  ⟨by decide, slot_strings_are_words '0' "ls -l ; pwd".toList _ (by decide)⟩

/-! ## C18: the count `num_tokens` -/

theorem step_blank_iff {prev : Option Char} {s : Scan} (h : Inv prev s) (oob ch : Char)
    (last : Bool) :
    ((step oob prev ch last s).1.token_counter = 0 ∧
        (step oob prev ch last s).1.curr_substr = []) ↔
      (s.token_counter = 0 ∧ s.curr_substr = [] ∧ isTokenChar ch = false) := by
  by_cases hskip : prev = some ' ' ∧ ch = ' '
  · obtain ⟨hp, hc⟩ := hskip
    subst hp hc
    rw [step_skip]
    have : isTokenChar ' ' = false := by decide
    simp [this]
  · by_cases ht : isTokenChar ch = true
    · cases last with
      | false =>
        rw [step_token oob prev s ht]
        simp [ht]
      | true =>
        rw [step_token_last oob prev s ht, boundary_token_counter]
        simp only [ht, Bool.true_eq_false, and_false, iff_false, not_and]
        intro h0
        by_cases hz : s.token_counter = 0
        · simp [hz] at h0
        · simp [hz] at h0
    · have ht : isTokenChar ch = false := by simpa using ht
      rw [step_delim oob last s ht hskip, boundary_token_counter, boundary_curr]
      simp only [ht, and_true]
      by_cases hz : s.token_counter = 0
      · by_cases hc : s.curr_substr = []
        · simp [hz, hc]
        · simp [hz, hc]
      · simp [hz]

theorem scan_sum_zero_iff (oob : Char) (rest : Str) :
    ∀ (prev : Option Char) (s : Scan), Inv prev s →
      (((scan oob prev rest s).map Prod.snd).sum = 0 ↔
        (rest = [] ∨ (s.token_counter = 0 ∧ s.curr_substr = [] ∧
          ∀ c ∈ rest, isTokenChar c = false))) := by
  induction rest with
  | nil => intro _ _ _; simp [scan_nil]
  | cons ch rest ih =>
    intro prev s h
    have hstep := step_blank_iff h oob ch rest.isEmpty
    rw [scan_cons]
    by_cases hb : (step oob prev ch rest.isEmpty s).2 = true
    · have hcurr := step_break_curr h oob ch rest.isEmpty hb
      have ihf := ih (some ch) Scan.fresh (Inv.fresh _)
      rw [if_pos hb, List.map_cons, List.sum_cons, Nat.add_eq_zero_iff, ihf]
      simp only [List.cons_ne_nil, false_or, List.mem_cons, forall_eq_or_imp]
      have hfresh : Scan.fresh.token_counter = 0 ∧ Scan.fresh.curr_substr = [] := ⟨rfl, rfl⟩
      constructor
      · rintro ⟨h1, h2⟩
        obtain ⟨a1, a2, a3⟩ := hstep.1 ⟨h1, hcurr⟩
        refine ⟨a1, a2, a3, ?_⟩
        rcases h2 with rfl | ⟨_, _, h2⟩
        · simp
        · exact h2
      · rintro ⟨a1, a2, a3, a4⟩
        exact ⟨(hstep.2 ⟨a1, a2, a3⟩).1, Or.inr ⟨hfresh.1, hfresh.2, a4⟩⟩
    · have hne : rest ≠ [] := by
        rintro rfl
        exact hb ((step_snd oob prev ch true s).2 (Or.inr rfl))
      rw [if_neg hb, ih (some ch) _ (h.step oob ch _)]
      simp only [hne, List.cons_ne_nil, false_or, List.mem_cons, forall_eq_or_imp]
      constructor
      · rintro ⟨h1, h2, h3⟩
        obtain ⟨a1, a2, a3⟩ := hstep.1 ⟨h1, h2⟩
        exact ⟨a1, a2, a3, h3⟩
      · rintro ⟨a1, a2, a3, a4⟩
        exact ⟨(hstep.2 ⟨a1, a2, a3⟩).1, (hstep.2 ⟨a1, a2, a3⟩).2, a4⟩

theorem sum_counters_eq_countP (l : List (Command × Nat))
    (h : ∀ x ∈ l, x.2 = if x.1.empty = true then 0 else 1) :
    (l.map Prod.snd).sum = (l.map Prod.fst).countP (fun c => !c.empty) := by
  induction l with
  | nil => rfl
  | cons x l ih =>
    have hx := h x (by simp)
    rw [List.map_cons, List.sum_cons, List.map_cons, List.countP_cons,
      ih (fun y hy => h y (by simp [hy])), hx]
    cases x.1.empty <;> simp [Nat.add_comm]

theorem counter_of_slot {p : Option Char} {t : Scan} (h : Inv p t) :
    t.token_counter = if t.cmd.empty = true then 0 else 1 := by
  by_cases h0 : t.token_counter = 0
  · rw [h.untouched h0, h0]
    rfl
  · have := h.count
    rw [(h.named h0).1]
    simp
    omega

/-- C18: for every line, `getNumTokens` after parsing is the number of slots
that are not empty, each such slot counting for one whatever the number of
its arguments; it is 0 exactly when the line contains no token character;
and in that case the pass of the main loop leaves the state of the shell,
its history log included, as it was and forks no process (it prints nothing,
or the message for too many commands). -/
theorem getNumTokens_counts_nonempty_slots (oob : Char) (str : Str) :
    (Parser.new oob str).getNumTokens =
      (Parser.new oob str).tokens.countP (fun c => !c.empty) ∧
    ((Parser.new oob str).getNumTokens = 0 ↔ ∀ c ∈ str, isTokenChar c = false) ∧
    ((Parser.new oob str).getNumTokens = 0 → ∀ (MAX_COMMANDS : Nat) (sh : Shell),
      ∃ events, mainLine MAX_COMMANDS oob sh str = some (sh, events, none) ∧
        spawnedSlots events = [] ∧ (events = [] ∨ events = [Event.overmax])) := by
  refine ⟨?_, ?_, ?_⟩
  · simp only [Parser.getNumTokens, Parser.new]
    apply sum_counters_eq_countP
    intro x hx
    obtain ⟨p, t, ht, rfl⟩ := scan_slots_inv oob str none Scan.fresh (Inv.fresh _) x hx
    exact counter_of_slot ht
  · simp only [Parser.getNumTokens, Parser.new]
    rw [scan_sum_zero_iff oob str none Scan.fresh (Inv.fresh _)]
    constructor
    · rintro (rfl | ⟨_, _, h⟩)
      · simp
      · exact h
    · intro h
      exact Or.inr ⟨rfl, rfl, h⟩
  · intro h0 M sh
    unfold mainLine
    by_cases hst : (Parser.new oob str).getStatus M = Status.OVERMAX
    · exact ⟨[Event.overmax], by simp [hst], rfl, Or.inr rfl⟩
    · exact ⟨[], by simp [hst, h0], rfl, Or.inl rfl⟩

/-! ## One slot of the execution loop -/

theorem spawnedSlots_append (a b : List Event) :
    spawnedSlots (a ++ b) = spawnedSlots a ++ spawnedSlots b := by
  simp [spawnedSlots, List.filterMap_append]

theorem stdinUses_append (a b : List Event) :
    stdinUses (a ++ b) = stdinUses a ++ stdinUses b := by
  simp [stdinUses, List.filterMap_append]

theorem stdoutUses_append (a b : List Event) :
    stdoutUses (a ++ b) = stdoutUses a ++ stdoutUses b := by
  simp [stdoutUses, List.filterMap_append]

theorem waitCount_append (a b : List Event) : waitCount (a ++ b) = waitCount a + waitCount b := by
  simp [waitCount, List.count_append]

theorem execLoop_exit (i : Nat) (command : Command) (rest : List Command) (e : Exec)
    (h : command.exec = ['e', 'x', 'i', 't']) :
    execLoop i (command :: rest) e = (e, some 0) := by
  rw [execLoop, if_pos h]

theorem execLoop_empty (i : Nat) (command : Command) (rest : List Command) (e : Exec)
    (h1 : command.exec ≠ ['e', 'x', 'i', 't']) (h2 : command.empty = true) :
    execLoop i (command :: rest) e = execLoop (i + 1) rest e := by
  rw [execLoop, if_neg h1, if_pos h2]

/-- What the execution loop does for a slot that is neither `exit` nor empty
(mysh.cpp:120-196): the events it adds and the variables it leaves. -/
theorem execLoop_run (i : Nat) (command : Command) (rest : List Command) (e : Exec)
    (h1 : command.exec ≠ ['e', 'x', 'i', 't']) (h2 : command.empty = false) :
    ∃ (e1 : Exec) (S : List Event),
      execLoop i (command :: rest) e = execLoop (i + 1) rest e1 ∧
      e1.events = e.events ++ S ∧ spawnedSlots S = [i] ∧
      stdinUses S = (if command.pipeIn = true then [(i, e.pipe_counter)] else []) ∧
      stdoutUses S = (if command.pipeOut = true then
        [(i, e.pipe_counter + if command.pipeIn = true then 1 else 0)] else []) ∧
      e1.pipe_counter = e.pipe_counter + (if command.pipeIn = true then 1 else 0) ∧
      e1.num_pipepids = e.num_pipepids +
        (if command.pipeIn = true ∨ command.pipeOut = true then 1 else 0) ∧
      e1.ignore_sig = true ∧
      waitCount S = (if command.background = false ∧ command.pipeOut = false ∧
        command.pipeIn = true then e1.num_pipepids else 0) := by
  rw [execLoop, if_neg h1, if_neg (by simp [h2])]
  rcases hi : command.pipeIn with _ | _ <;> rcases ho : command.pipeOut with _ | _ <;>
    rcases hg : command.background with _ | _ <;>
    simp only [Bool.false_eq_true, if_false, if_true, or_self, or_true, or_false, not_false_eq_true,
      and_self, and_true, and_false, not_true_eq_false, true_and, false_and, List.append_assoc,
      Nat.add_zero] <;>
    refine ⟨_, _, rfl, rfl, ?_, ?_, ?_, rfl, rfl, rfl, ?_⟩ <;>
    simp [spawnedSlots, stdinUses, stdoutUses, waitCount, List.filterMap_append,
      List.count_append]

/-! ## C13: the slot `exit` -/

theorem nonEmptySlots_bounds (l : List Command) :
    ∀ (i j : Nat), j ∈ nonEmptySlots i l → i ≤ j ∧ j < i + l.length := by
  induction l with
  | nil => intro i j hj; simp [nonEmptySlots] at hj
  | cons c l ih =>
    intro i j hj
    simp only [nonEmptySlots] at hj
    split_ifs at hj
    · have := ih (i + 1) j hj
      simp only [List.length_cons]
      omega
    · rcases List.mem_cons.1 hj with rfl | hj
      · simp
      · have := ih (i + 1) j hj
        simp only [List.length_cons]
        omega

theorem execLoop_until_exit (tokens : List Command) :
    ∀ (i : Nat) (e : Exec) (k : Nat) (c : Command), tokens[k]? = some c →
      c.exec = ['e', 'x', 'i', 't'] →
      (∀ j d, j < k → tokens[j]? = some d → d.exec ≠ ['e', 'x', 'i', 't']) →
      (execLoop i tokens e).2 = some 0 ∧
      ∃ E, (execLoop i tokens e).1.events = e.events ++ E ∧
        spawnedSlots E = nonEmptySlots i (tokens.take k) := by
  induction tokens with
  | nil => intro i e k c hk; simp at hk
  | cons command rest ih =>
    intro i e k c hk hc hbefore
    cases k with
    | zero =>
      have hcc : command = c := by simpa using hk
      subst hcc
      rw [execLoop_exit i command rest e hc]
      exact ⟨rfl, [], by simp, rfl⟩
    | succ k =>
      have h0 : command.exec ≠ ['e', 'x', 'i', 't'] := hbefore 0 command (by omega) (by simp)
      have hk1 : rest[k]? = some c := by simpa using hk
      have hb1 : ∀ j d, j < k → rest[j]? = some d → d.exec ≠ ['e', 'x', 'i', 't'] := by
        intro j d hj hd
        exact hbefore (j + 1) d (by omega) (by simpa using hd)
      by_cases hem : command.empty = true
      · obtain ⟨r1, E, r2, r3⟩ := ih (i + 1) e k c hk1 hc hb1
        rw [execLoop_empty i command rest e h0 hem]
        exact ⟨r1, E, r2, by simp [nonEmptySlots, hem, r3]⟩
      · have hem : command.empty = false := by simpa using hem
        obtain ⟨e1, S, q1, q2, q3, _⟩ := execLoop_run i command rest e h0 hem
        obtain ⟨r1, E, r2, r3⟩ := ih (i + 1) e1 k c hk1 hc hb1
        rw [q1]
        refine ⟨r1, S ++ E, ?_, ?_⟩
        · rw [r2, q2, List.append_assoc]
        · simp [spawnedSlots_append, q3, r3, nonEmptySlots, hem]

/-- C13: for every command list that has a slot whose executable is `exit`,
`k` being the first such slot, the execution loop leaves `main` with the exit
code 0, and the processes it forks are, in slot order and once each, those
of the non-empty slots before `k`: none for slot `k` or a later slot. -/
theorem exit_stops_the_loop (tokens : List Command) (k : Nat) (c : Command) (e : Exec)
    (hk : tokens[k]? = some c) (hc : c.exec = ['e', 'x', 'i', 't'])
    (hbefore : ∀ j d, j < k → tokens[j]? = some d → d.exec ≠ ['e', 'x', 'i', 't']) :
    (execLoop 0 tokens e).2 = some 0 ∧
    ∃ E, (execLoop 0 tokens e).1.events = e.events ++ E ∧
      spawnedSlots E = nonEmptySlots 0 (tokens.take k) ∧ ∀ j ∈ spawnedSlots E, j < k := by
  obtain ⟨r1, E, r2, r3⟩ := execLoop_until_exit tokens 0 e k c hk hc hbefore
  refine ⟨r1, E, r2, r3, ?_⟩
  intro j hj
  rw [r3] at hj
  have := nonEmptySlots_bounds _ 0 j hj
  have hlen : (tokens.take k).length ≤ k := by simp
  omega

theorem exit_stops_the_loop_witness :
    ((Parser.new '0' "ls ;; exit ; pwd".toList).tokens[2]? = some (Command.plain "exit".toList []) ∧
      (Command.plain "exit".toList []).exec = ['e', 'x', 'i', 't'] ∧
      (∀ j d, j < 2 → (Parser.new '0' "ls ;; exit ; pwd".toList).tokens[j]? = some d →
        d.exec ≠ ['e', 'x', 'i', 't'])) ∧
    (execLoop 0 (Parser.new '0' "ls ;; exit ; pwd".toList).tokens (Exec.start true none)).2 =
      some 0 ∧
    ∃ E, (execLoop 0 (Parser.new '0' "ls ;; exit ; pwd".toList).tokens
        (Exec.start true none)).1.events = (Exec.start true none).events ++ E ∧
      spawnedSlots E =
        nonEmptySlots 0 ((Parser.new '0' "ls ;; exit ; pwd".toList).tokens.take 2) ∧
      ∀ j ∈ spawnedSlots E, j < 2 :=
  have h1 : (Parser.new '0' "ls ;; exit ; pwd".toList).tokens[2]? =
      some (Command.plain "exit".toList []) := by decide
  have h2 : ∀ j d, j < 2 → (Parser.new '0' "ls ;; exit ; pwd".toList).tokens[j]? = some d →
      d.exec ≠ ['e', 'x', 'i', 't'] := by
    intro j d hj hd
    have h0 : (Parser.new '0' "ls ;; exit ; pwd".toList).tokens =
        [Command.plain "ls".toList [], Command.init, Command.plain "exit".toList [],
          Command.plain "pwd".toList []] := by decide
    rw [h0] at hd
    interval_cases j
    · rw [← Option.some.inj hd]
      decide
    · rw [← Option.some.inj hd]
      decide
  ⟨⟨h1, rfl, h2⟩, exit_stops_the_loop _ 2 _ (Exec.start true none) h1 rfl h2⟩

/-! ## C17: the routing of signals at the prompt -/

theorem execLoop_ignore_sig (tokens : List Command) :
    ∀ (i : Nat) (e : Exec), e.ignore_sig = true → (execLoop i tokens e).1.ignore_sig = true := by
  induction tokens with
  | nil => intro i e h; exact h
  | cons command rest ih =>
    intro i e h
    by_cases h0 : command.exec = ['e', 'x', 'i', 't']
    · rw [execLoop_exit i command rest e h0]
      exact h
    · by_cases hem : command.empty = true
      · rw [execLoop_empty i command rest e h0 hem]
        exact ih (i + 1) e h
      · obtain ⟨e1, S, q1, _, _, _, _, _, _, q8, _⟩ :=
          execLoop_run i command rest e h0 (by simpa using hem)
        rw [q1]
        exact ih (i + 1) e1 q8

theorem mainLine_ignore_sig (M : Nat) (oob : Char) (sh sh1 : Shell) (input : Str)
    (events : List Event) (code : Option Nat) (h : sh.ignore_sig = true)
    (hrun : mainLine M oob sh input = some (sh1, events, code)) : sh1.ignore_sig = true := by
  unfold mainLine at hrun
  dsimp only at hrun
  by_cases h1 : (Parser.new oob input).getStatus M = Status.OVERMAX
  · rw [if_pos h1] at hrun
    simp only [Option.some.injEq, Prod.mk.injEq] at hrun
    rw [← hrun.1]
    exact h
  · rw [if_neg h1] at hrun
    by_cases h2 : (Parser.new oob input).getNumTokens = 0
    · rw [if_pos h2] at hrun
      simp only [Option.some.injEq, Prod.mk.injEq] at hrun
      rw [← hrun.1]
      exact h
    · rw [if_neg h2] at hrun
      split at hrun
      · simp at hrun
      · simp only [Option.some.injEq, Prod.mk.injEq] at hrun
        rw [← hrun.1]
        exact execLoop_ignore_sig _ 0 _ h

theorem mainLoop_ignore_sig (M : Nat) (oob : Char) (inputs : List Str) :
    ∀ (sh sh1 : Shell) (passes : List (List Event)) (code : Option Nat),
      sh.ignore_sig = true → mainLoop M oob sh inputs = some (sh1, passes, code) →
      sh1.ignore_sig = true := by
  induction inputs with
  | nil =>
    intro sh sh1 passes code h hrun
    simp only [mainLoop, Option.some.injEq, Prod.mk.injEq] at hrun
    rw [← hrun.1]
    exact h
  | cons input inputs ih =>
    intro sh sh1 passes code h hrun
    simp only [mainLoop] at hrun
    cases hl : mainLine M oob sh input with
    | none => simp [hl] at hrun
    | some r =>
      obtain ⟨sh2, events, code2⟩ := r
      have h2 := mainLine_ignore_sig M oob sh sh2 input events code2 h hl
      rw [hl] at hrun
      cases code2 with
      | some c =>
        simp only [Option.some.injEq, Prod.mk.injEq] at hrun
        rw [← hrun.1]
        exact h2
      | none =>
        simp only at hrun
        cases hm : mainLoop M oob sh2 inputs with
        | none => simp [hm] at hrun
        | some r2 =>
          obtain ⟨sh3, rest, code3⟩ := r2
          rw [hm] at hrun
          simp only [Option.some.injEq, Prod.mk.injEq] at hrun
          rw [← hrun.1]
          exact ih sh2 sh3 rest code3 h2 hm

/-- C17: the shell starts with `ignore_sig` true (routing to the child off),
and in every state that the main loop reaches after a sequence of input
lines, where it prints the prompt and reads the next line, `ignore_sig` is
true again; the execution loop of a line re-establishes it for every command
list, whatever its empty slots, pipeline stages and other commands. -/
theorem prompt_state_is_idle (MAX_COMMANDS : Nat) (oob : Char) (inputs : List Str) (sh : Shell)
    (passes : List (List Event))
    (hrun : mainLoop MAX_COMMANDS oob Shell.init inputs = some (sh, passes, none)) :
    Shell.init.ignore_sig = true ∧ sh.ignore_sig = true ∧
    ∀ (tokens : List Command) (e : Exec), e.ignore_sig = true →
      (execLoop 0 tokens e).1.ignore_sig = true :=
  ⟨rfl, mainLoop_ignore_sig MAX_COMMANDS oob inputs Shell.init sh passes none rfl hrun,
    fun tokens e h => execLoop_ignore_sig tokens 0 e h⟩

theorem prompt_state_is_idle_witness :
    ∃ (sh : Shell) (passes : List (List Event)),
      mainLoop 8 '0' Shell.init ["ls".toList, [], "a ; b".toList] = some (sh, passes, none) ∧
      Shell.init.ignore_sig = true ∧ sh.ignore_sig = true ∧
      ∀ (tokens : List Command) (e : Exec), e.ignore_sig = true →
        (execLoop 0 tokens e).1.ignore_sig = true :=
  have h : mainLoop 8 '0' Shell.init ["ls".toList, [], "a ; b".toList] =
      some ({ history := ["ls".toList, "ls".toList, "a ; b".toList, "a ; b".toList,
                "a ; b".toList], ignore_sig := true, child_pid := some 1 },
        [[Event.spawn 0 none none, Event.waitpid 0], [],
          [Event.spawn 0 none none, Event.waitpid 0, Event.spawn 1 none none, Event.waitpid 1]],
        none) := by decide
  ⟨_, _, h, prompt_state_is_idle 8 '0' _ _ _ h⟩

/-! ## C16: the waits at the end of a pipeline -/

/-- C16 (the code departs from the claim): for the command list of
`a | b ; c | d` the execution loop forks four processes and, at the last
stage `d` of the second pipeline, calls `wait` four times, although that
pipeline has two processes: `num_pipepids` (mysh.cpp:108) is never reset
between the pipelines of a line. At the last stage `b` of the first pipeline
it calls `wait` twice. -/
theorem second_pipeline_waits_for_all :
    wellFormed false [Command.stage ['a'] false true, Command.stage ['b'] true false,
      Command.stage ['c'] false true, Command.stage ['d'] true false] = true ∧
    (execLoop 0 [Command.stage ['a'] false true, Command.stage ['b'] true false,
      Command.stage ['c'] false true, Command.stage ['d'] true false]
        (Exec.start true none)).1.events =
      [Event.spawn 0 none (some 0), Event.spawn 1 (some 0) none, Event.closePipe 0,
        Event.wait, Event.wait,
        Event.spawn 2 none (some 1), Event.spawn 3 (some 1) none, Event.closePipe 1,
        Event.wait, Event.wait, Event.wait, Event.wait] := by
  decide

/-! ## C20: the positions read -/

theorem scanReads_bound (rest : Str) :
    ∀ (i : Nat) (prev : Option Char), i + rest.length < 2 ^ 64 →
      ∀ p ∈ scanReads i prev rest, p < i + rest.length ∨ (i = 0 ∧ p = 2 ^ 64 - 1) := by
  induction rest with
  | nil => intro i prev _ p hp; simp [scanReads] at hp
  | cons ch rest ih =>
    intro i prev hlen p hp
    simp only [List.length_cons] at hlen ⊢
    simp only [scanReads, List.mem_append] at hp
    have hib : i = 0 ∧ indexBefore i = 2 ^ 64 - 1 ∨ 0 < i ∧ indexBefore i = i - 1 := by
      unfold indexBefore
      norm_num at hlen ⊢
      omega
    rcases hp with hp | hp
    · simp only [stepReads, List.mem_append, List.mem_singleton] at hp
      rcases hp with (hp | hp) | hp
      · subst hp
        left
        omega
      · split_ifs at hp with h0
        · simp only [List.mem_singleton] at hp
          rw [hp]
          left
          omega
        · simp at hp
      · split_ifs at hp
        · simp at hp
        · simp only [List.mem_singleton] at hp
          rw [hp]
          rcases hib with ⟨a1, a2⟩ | ⟨a1, a2⟩
          · exact Or.inr ⟨a1, a2⟩
          · left
            omega
        · simp at hp
    · rcases ih (i + 1) (some ch) (by omega) p hp with h | ⟨h, _⟩
      · left
        omega
      · omega

/-- C20 (the code departs from the claim): for the line `h`, of length 1, the
constructor reads position 0 and then, at parser.cpp:49, the position
`i - 1` with `i = 0`, which for the unsigned `i` is `2^64 - 1` and lies
outside the line; the same read happens for every line of length 1 and for
every line whose first character is a space, `<`, `>`, `|` or `;`. All other
reads lie inside the line. -/
theorem constructor_reads_before_the_line :
    Parser.reads ['h'] = [0, 2 ^ 64 - 1] ∧ ¬ (2 ^ 64 - 1 < ['h'].length) ∧
    (∀ (ch : Char) (rest : Str), rest = [] ∨ isTokenChar ch = false →
      2 ^ 64 - 1 ∈ Parser.reads (ch :: rest)) ∧
    (∀ str : Str, str.length < 2 ^ 64 →
      ∀ p ∈ Parser.reads str, p < str.length ∨ p = 2 ^ 64 - 1) := by
  refine ⟨by decide, by decide, ?_, ?_⟩
  · intro ch rest h
    have hcond : ch = ' ' ∨ ch = '<' ∨ ch = '>' ∨ rest.isEmpty = true ∨ ch = '|' ∨ ch = ';' := by
      rcases h with rfl | h
      · simp
      · rw [isTokenChar_false_iff] at h
        tauto
    simp only [Parser.reads, scanReads, stepReads, List.mem_append]
    left
    right
    rw [if_neg (by simp), if_pos hcond]
    simp [indexBefore]
  · intro str hlen p hp
    rcases scanReads_bound str 0 none (by simpa using hlen) p hp with h | ⟨_, h⟩
    · left
      simpa using h
    · exact Or.inr h

/-! ## C15: the log after a call of `Parser::history` -/

theorem history_result (p : Parser) (idx : Nat) (log : List Str) :
    (∀ log1 out, p.history log idx = some (log1, out) → log1 = pushLine log p.str) ∧
    (p.history log idx = none →
      (((p.tokens.getD idx Command.init).exec.length = 3 ∨
          (p.tokens.getD idx Command.init).exec.length = 4) ∧
        charAt (p.tokens.getD idx Command.init).exec 0 = 'h' ∧
        charAt (p.tokens.getD idx Command.init).exec 1 = '-') ∧
      historyIndex (p.tokens.getD idx Command.init).exec ≤ 0) := by
  unfold Parser.history pushLine
  dsimp only
  constructor
  · intro log1 out h
    by_cases hl : log.length = 20
    · simp only [hl, if_true] at h ⊢
      split_ifs at h <;> simp only [Option.some.injEq, Prod.mk.injEq] at h <;>
        exact h.1.symm
    · simp only [hl, if_false] at h ⊢
      split_ifs at h <;> simp only [Option.some.injEq, Prod.mk.injEq] at h <;>
        exact h.1.symm
  · intro h
    split_ifs at h
    all_goals exact ⟨by assumption, by omega⟩

/-- C15: for every history log with at most 20 entries, the log that one
call of `Parser::history` leaves has at most 20 entries, ends with the raw
input line of the parser, and before it holds the previous log in the same
order, without its oldest entry exactly when the previous log held 20
entries. Every call that is defined leaves that log; a call is undefined
only when the slot is of the form `h-N` with an index below 1, where
`std::advance` would step before the first entry. The index is computed on
the signed `char`: for the slot `h-` followed by the byte 0xE9 it is -72 and
the call is undefined. -/
theorem history_appends_line (p : Parser) (idx : Nat) (log : List Str)
    (hlen : log.length ≤ 20) :
    (pushLine log p.str).length ≤ 20 ∧
    (pushLine log p.str).getLast? = some p.str ∧
    (pushLine log p.str).dropLast = (if log.length = 20 then log.tail else log) ∧
    (∀ log1 out, p.history log idx = some (log1, out) → log1 = pushLine log p.str) ∧
    (p.history log idx = none →
      (((p.tokens.getD idx Command.init).exec.length = 3 ∨
          (p.tokens.getD idx Command.init).exec.length = 4) ∧
        charAt (p.tokens.getD idx Command.init).exec 0 = 'h' ∧
        charAt (p.tokens.getD idx Command.init).exec 1 = '-') ∧
      historyIndex (p.tokens.getD idx Command.init).exec ≤ 0) ∧
    historyIndex ['h', '-', '\xe9'] = -72 ∧
    (Parser.new '0' ['h', '-', '\xe9']).history [] 0 = none := by
  refine ⟨?_, ?_, ?_, (history_result p idx log).1, (history_result p idx log).2,
    by decide, by decide⟩
  · unfold pushLine
    split_ifs with h
    · simp [h]
    · simp
      omega
  · simp [pushLine]
  · simp [pushLine]

theorem history_appends_line_witness :
    twentyLines.length ≤ 20 ∧
    (pushLine twentyLines (Parser.new '0' "ls -l".toList).str).length ≤ 20 ∧
    (pushLine twentyLines (Parser.new '0' "ls -l".toList).str).getLast? =
      some (Parser.new '0' "ls -l".toList).str ∧
    (pushLine twentyLines (Parser.new '0' "ls -l".toList).str).dropLast =
      (if twentyLines.length = 20 then twentyLines.tail else twentyLines) ∧
    (∀ log1 out, (Parser.new '0' "ls -l".toList).history twentyLines 0 = some (log1, out) →
      log1 = pushLine twentyLines (Parser.new '0' "ls -l".toList).str) ∧
    ((Parser.new '0' "ls -l".toList).history twentyLines 0 = none →
      ((((Parser.new '0' "ls -l".toList).tokens.getD 0 Command.init).exec.length = 3 ∨
          ((Parser.new '0' "ls -l".toList).tokens.getD 0 Command.init).exec.length = 4) ∧
        charAt ((Parser.new '0' "ls -l".toList).tokens.getD 0 Command.init).exec 0 = 'h' ∧
        charAt ((Parser.new '0' "ls -l".toList).tokens.getD 0 Command.init).exec 1 = '-') ∧
      historyIndex ((Parser.new '0' "ls -l".toList).tokens.getD 0 Command.init).exec ≤ 0) ∧
    historyIndex ['h', '-', '\xe9'] = -72 ∧
    (Parser.new '0' ['h', '-', '\xe9']).history [] 0 = none :=
  ⟨by decide, history_appends_line (Parser.new '0' "ls -l".toList) 0 twentyLines (by decide)⟩

/-! ## C12: the pipes of well-formed pipelines -/

/-- The wiring of the loop over well-formed pipelines without `exit`: the
pipes handed out as standard output are the next `pipeCount` indices in
order, and every one of them is the standard input of the following slot. -/
theorem execLoop_wiring (tokens : List Command) :
    ∀ (inPipe : Bool) (i : Nat) (e : Exec), wellFormed inPipe tokens = true →
      (∀ c ∈ tokens, c.exec ≠ ['e', 'x', 'i', 't']) →
      ∃ E, (execLoop i tokens e).1.events = e.events ++ E ∧
        (stdoutUses E).map Prod.snd =
          List.range' (e.pipe_counter + (if inPipe = true then 1 else 0)) (pipeCount tokens) ∧
        stdinUses E = (if inPipe = true then [(i, e.pipe_counter)] else []) ++
          (stdoutUses E).map (fun x => (x.1 + 1, x.2)) := by
  induction tokens with
  | nil =>
    intro inPipe i e hwf _
    cases inPipe
    · exact ⟨[], by simp [execLoop], by simp [stdoutUses, pipeCount], by simp [stdinUses, stdoutUses]⟩
    · simp [wellFormed] at hwf
  | cons c rest ih =>
    intro inPipe i e hwf hexit
    have hc : c.exec ≠ ['e', 'x', 'i', 't'] := hexit c (List.mem_cons_self _ _)
    have hrest : ∀ d ∈ rest, d.exec ≠ ['e', 'x', 'i', 't'] :=
      fun d hd => hexit d (List.mem_cons_of_mem _ hd)
    cases inPipe
    · unfold wellFormed at hwf
      by_cases hin : c.pipeIn = true
      · simp [hin] at hwf
      · have hin0 : c.pipeIn = false := by simpa using hin
        by_cases hout : c.pipeOut = true
        · simp only [hin0, hout, if_true, Bool.false_eq_true, if_false, Bool.and_eq_true,
            Bool.not_eq_true'] at hwf
          obtain ⟨e1, S, r1, r2, -, r4, r5, r6, -⟩ := execLoop_run i c rest e hc hwf.1
          obtain ⟨E, q1, q2, q3⟩ := ih true (i + 1) e1 hwf.2 hrest
          simp only [hin0, hout, if_true, Bool.false_eq_true, if_false, Nat.add_zero] at r4 r5 r6
          refine ⟨S ++ E, ?_, ?_, ?_⟩
          · rw [r1, q1, r2, List.append_assoc]
          · rw [stdoutUses_append, r5, List.map_append, q2, r6]
            simp [pipeCount, hout, List.range'_succ]
          · rw [stdinUses_append, stdoutUses_append, r4, q3, r5, r6]
            simp
        · have hout0 : c.pipeOut = false := by simpa using hout
          simp only [hin0, hout0, Bool.false_eq_true, if_false] at hwf
          by_cases hem : c.empty = true
          · rw [execLoop_empty i c rest e hc hem]
            obtain ⟨E, q1, q2, q3⟩ := ih false (i + 1) e hwf hrest
            refine ⟨E, q1, ?_, ?_⟩
            · rw [q2]
              simp [pipeCount, hout0]
            · rw [q3]
              simp
          · have hem0 : c.empty = false := by simpa using hem
            obtain ⟨e1, S, r1, r2, -, r4, r5, r6, -⟩ := execLoop_run i c rest e hc hem0
            obtain ⟨E, q1, q2, q3⟩ := ih false (i + 1) e1 hwf hrest
            simp only [hin0, hout0, Bool.false_eq_true, if_false, Nat.add_zero] at r4 r5 r6
            refine ⟨S ++ E, ?_, ?_, ?_⟩
            · rw [r1, q1, r2, List.append_assoc]
            · rw [stdoutUses_append, r5, List.map_append, q2, r6]
              simp [pipeCount, hout0]
            · rw [stdinUses_append, stdoutUses_append, r4, q3, r5]
              simp
    · unfold wellFormed at hwf
      by_cases hin : c.pipeIn = true
      · simp only [hin, if_true, Bool.and_eq_true, Bool.not_eq_true'] at hwf
        obtain ⟨e1, S, r1, r2, -, r4, r5, r6, -⟩ := execLoop_run i c rest e hc hwf.1
        obtain ⟨E, q1, q2, q3⟩ := ih c.pipeOut (i + 1) e1 hwf.2 hrest
        simp only [hin, if_true] at r4 r5 r6
        by_cases hout : c.pipeOut = true
        · simp only [hout, if_true] at r5 q2 q3
          refine ⟨S ++ E, ?_, ?_, ?_⟩
          · rw [r1, q1, r2, List.append_assoc]
          · rw [stdoutUses_append, r5, List.map_append, q2, r6]
            simp [pipeCount, hout, List.range'_succ]
          · rw [stdinUses_append, stdoutUses_append, r4, q3, r5, r6]
            simp
        · have hout0 : c.pipeOut = false := by simpa using hout
          simp only [hout0, Bool.false_eq_true, if_false, Nat.add_zero] at r5 q2 q3
          refine ⟨S ++ E, ?_, ?_, ?_⟩
          · rw [r1, q1, r2, List.append_assoc]
          · rw [stdoutUses_append, r5, List.map_append, q2, r6]
            simp [pipeCount, hout0]
          · rw [stdinUses_append, stdoutUses_append, r4, q3, r5]
            simp
      · simp [hin] at hwf

/-- C12, as the code has it: for every command list of well-formed pipelines
in which no slot is `exit`, the pipes that the loop hands out as standard
output are the pipes `0 .. pipeCount - 1`, each to exactly one slot, and
every such pipe is the standard input of exactly one slot, the one that
follows the writer; for `a | b | c` pipe 0 connects slot 0 to slot 1 and
pipe 1 connects slot 1 to slot 2. -/
theorem pipes_connect_adjacent_stages (tokens : List Command) (ignore_sig : Bool)
    (child_pid : Option Nat)
    (hwf : wellFormed false tokens = true)
    (hexit : ∀ c ∈ tokens, c.exec ≠ ['e', 'x', 'i', 't']) :
    (stdoutUses (execLoop 0 tokens (Exec.start ignore_sig child_pid)).1.events).map Prod.snd =
      List.range (pipeCount tokens) ∧
    stdinUses (execLoop 0 tokens (Exec.start ignore_sig child_pid)).1.events =
      (stdoutUses (execLoop 0 tokens (Exec.start ignore_sig child_pid)).1.events).map
        (fun x => (x.1 + 1, x.2)) ∧
    stdoutUses (execLoop 0 [Command.stage ['a'] false true, Command.stage ['b'] true true,
        Command.stage ['c'] true false] (Exec.start true none)).1.events = [(0, 0), (1, 1)] ∧
    stdinUses (execLoop 0 [Command.stage ['a'] false true, Command.stage ['b'] true true,
        Command.stage ['c'] true false] (Exec.start true none)).1.events = [(1, 0), (2, 1)] := by
  refine ⟨?_, ?_, by decide, by decide⟩ <;>
  obtain ⟨E, q1, q2, q3⟩ :=
    execLoop_wiring tokens false 0 (Exec.start ignore_sig child_pid) hwf hexit <;>
  have h0 : (Exec.start ignore_sig child_pid).events = [] := rfl <;>
  have h1 : (Exec.start ignore_sig child_pid).pipe_counter = 0 := rfl <;>
  rw [h0, List.nil_append] at q1 <;>
  rw [h1] at q2 <;>
  rw [q1]
  · rw [q2, List.range_eq_range']
    simp
  · rw [q3]
    simp

theorem pipes_connect_adjacent_stages_witness :
    (wellFormed false [Command.stage ['a'] false true, Command.stage ['b'] true true,
        Command.stage ['c'] true false] = true ∧
      ∀ c ∈ [Command.stage ['a'] false true, Command.stage ['b'] true true,
        Command.stage ['c'] true false], c.exec ≠ ['e', 'x', 'i', 't']) ∧
    (stdoutUses (execLoop 0 [Command.stage ['a'] false true, Command.stage ['b'] true true,
        Command.stage ['c'] true false] (Exec.start true none)).1.events).map Prod.snd =
      List.range (pipeCount [Command.stage ['a'] false true, Command.stage ['b'] true true,
        Command.stage ['c'] true false]) ∧
    stdinUses (execLoop 0 [Command.stage ['a'] false true, Command.stage ['b'] true true,
        Command.stage ['c'] true false] (Exec.start true none)).1.events =
      (stdoutUses (execLoop 0 [Command.stage ['a'] false true, Command.stage ['b'] true true,
        Command.stage ['c'] true false] (Exec.start true none)).1.events).map
        (fun x => (x.1 + 1, x.2)) ∧
    stdoutUses (execLoop 0 [Command.stage ['a'] false true, Command.stage ['b'] true true,
        Command.stage ['c'] true false] (Exec.start true none)).1.events = [(0, 0), (1, 1)] ∧
    stdinUses (execLoop 0 [Command.stage ['a'] false true, Command.stage ['b'] true true,
        Command.stage ['c'] true false] (Exec.start true none)).1.events = [(1, 0), (2, 1)] :=
  ⟨⟨by decide, by decide⟩,
    pipes_connect_adjacent_stages _ true none (by decide) (by decide)⟩

/-- C12, the claim as written fails: the list of `a | exit` is a well-formed
pipeline with one pipe; the loop makes pipe 0 the standard output of slot 0
and leaves `main` at slot 1, so no command has pipe 0 as its standard
input. -/
theorem pipes_connect_counterexample :
    wellFormed false [Command.stage ['a'] false true,
      Command.stage ['e', 'x', 'i', 't'] true false] = true ∧
    pipeCount [Command.stage ['a'] false true,
      Command.stage ['e', 'x', 'i', 't'] true false] = 1 ∧
    execLoop 0 [Command.stage ['a'] false true,
      Command.stage ['e', 'x', 'i', 't'] true false] (Exec.start true none) =
        ({ Exec.start true none with
            num_pipepids := 1, child_pid := some 0,
            events := [Event.spawn 0 none (some 0)] }, some 0) ∧
    stdoutUses (execLoop 0 [Command.stage ['a'] false true,
      Command.stage ['e', 'x', 'i', 't'] true false] (Exec.start true none)).1.events =
        [(0, 0)] ∧
    stdinUses (execLoop 0 [Command.stage ['a'] false true,
      Command.stage ['e', 'x', 'i', 't'] true false] (Exec.start true none)).1.events = [] := by
  decide

end Mysh
